import Mathlib

/-!
# genericjson: path navigation over a decoded JSON value

A shallow embedding of `src/genericjson/gen.go`.

* A Go `interface{}` is the inductive type `Any`: the dynamic types the code
  distinguishes (`nil`, `bool`, `float64`, `string`, `int`, `[]interface{}`,
  `map[string]interface{}`) and one constructor for every other dynamic type.
  Path segments are `interface{}` values too, so a path is a `List Any`.
* A Go map is an association list; lookup takes the first binding of a key,
  assignment replaces that binding or adds one, `delete` drops every binding
  of the key.  No theorem below needs the keys to be distinct.
* Slices and maps are references in Go, so `Set` and `Delete` change the tree
  the caller holds.  The embedding passes the tree explicitly: a mutating
  method returns the tree after the call next to its Go result.  The tree is a
  tree: no container is shared between two positions (which is what decoding
  JSON produces), and maps are non-nil.
* A method that can stop with a run-time panic returns `Outcome.panicked`.
* A `float64` is its bit pattern; its value is read off the bits as a NaN, an
  infinity or a whole multiple of `2^(-1074)`, which makes `math.Trunc`,
  `math.Abs` and the one subtraction of the package exact integer arithmetic.
  An `int` has 64 bits.
* The predicate handed to `ScanObject` is a total function `Any → Bool`.
-/

namespace GenericJson

/-- A `float64`, given by its IEEE 754 binary64 bit pattern. -/
structure Float64 where
  bits : Nat
  deriving DecidableEq, Repr

/-- The Go type `Any` (`interface{}`): a dynamically typed value.  `int` is a Go
`int` (the code only compares it, so it is an unbounded `Int` here); `other`
stands for a value of any dynamic type the code has no case for. -/
inductive Any where
  | nil
  | bool (b : Bool)
  | float64 (r : Float64)
  | string (s : String)
  | int (i : Int)
  | slice (v : List Any)
  | map (v : List (String × Any))
  | other (tag : Nat)

instance : Inhabited Any := ⟨Any.nil⟩

mutual
/-- Equality of two values is decidable. -/
def Any.decEq : (a b : Any) → Decidable (a = b)
  | Any.nil, Any.nil => isTrue rfl
  | Any.bool x, Any.bool y => if h : x = y then isTrue (by rw [h]) else isFalse (by intro e; cases e; exact h rfl)
  | Any.float64 x, Any.float64 y => if h : x = y then isTrue (by rw [h]) else isFalse (by intro e; cases e; exact h rfl)
  | Any.string x, Any.string y => if h : x = y then isTrue (by rw [h]) else isFalse (by intro e; cases e; exact h rfl)
  | Any.int x, Any.int y => if h : x = y then isTrue (by rw [h]) else isFalse (by intro e; cases e; exact h rfl)
  | Any.other x, Any.other y => if h : x = y then isTrue (by rw [h]) else isFalse (by intro e; cases e; exact h rfl)
  | Any.slice x, Any.slice y =>
    match Any.decEqList x y with
    | isTrue h => isTrue (by rw [h])
    | isFalse h => isFalse (by intro e; cases e; exact h rfl)
  | Any.map x, Any.map y =>
    match Any.decEqFields x y with
    | isTrue h => isTrue (by rw [h])
    | isFalse h => isFalse (by intro e; cases e; exact h rfl)
  | Any.nil, Any.bool _ | Any.nil, Any.float64 _ | Any.nil, Any.string _ | Any.nil, Any.int _
  | Any.nil, Any.slice _ | Any.nil, Any.map _ | Any.nil, Any.other _ => isFalse (by intro e; cases e)
  | Any.bool _, Any.nil | Any.bool _, Any.float64 _ | Any.bool _, Any.string _ | Any.bool _, Any.int _
  | Any.bool _, Any.slice _ | Any.bool _, Any.map _ | Any.bool _, Any.other _ => isFalse (by intro e; cases e)
  | Any.float64 _, Any.nil | Any.float64 _, Any.bool _ | Any.float64 _, Any.string _ | Any.float64 _, Any.int _
  | Any.float64 _, Any.slice _ | Any.float64 _, Any.map _ | Any.float64 _, Any.other _ => isFalse (by intro e; cases e)
  | Any.string _, Any.nil | Any.string _, Any.bool _ | Any.string _, Any.float64 _ | Any.string _, Any.int _
  | Any.string _, Any.slice _ | Any.string _, Any.map _ | Any.string _, Any.other _ => isFalse (by intro e; cases e)
  | Any.int _, Any.nil | Any.int _, Any.bool _ | Any.int _, Any.float64 _ | Any.int _, Any.string _
  | Any.int _, Any.slice _ | Any.int _, Any.map _ | Any.int _, Any.other _ => isFalse (by intro e; cases e)
  | Any.slice _, Any.nil | Any.slice _, Any.bool _ | Any.slice _, Any.float64 _ | Any.slice _, Any.string _
  | Any.slice _, Any.int _ | Any.slice _, Any.map _ | Any.slice _, Any.other _ => isFalse (by intro e; cases e)
  | Any.map _, Any.nil | Any.map _, Any.bool _ | Any.map _, Any.float64 _ | Any.map _, Any.string _
  | Any.map _, Any.int _ | Any.map _, Any.slice _ | Any.map _, Any.other _ => isFalse (by intro e; cases e)
  | Any.other _, Any.nil | Any.other _, Any.bool _ | Any.other _, Any.float64 _ | Any.other _, Any.string _
  | Any.other _, Any.int _ | Any.other _, Any.slice _ | Any.other _, Any.map _ => isFalse (by intro e; cases e)
/-- Equality of two slices is decidable. -/
def Any.decEqList : (a b : List Any) → Decidable (a = b)
  | [], [] => isTrue rfl
  | [], _ :: _ => isFalse (by intro e; cases e)
  | _ :: _, [] => isFalse (by intro e; cases e)
  | x :: xs, y :: ys =>
    match Any.decEq x y, Any.decEqList xs ys with
    | isTrue h, isTrue hs => isTrue (by rw [h, hs])
    | isFalse h, _ => isFalse (by intro e; cases e; exact h rfl)
    | _, isFalse hs => isFalse (by intro e; cases e; exact hs rfl)
/-- Equality of two maps (as lists of bindings) is decidable. -/
def Any.decEqFields : (a b : List (String × Any)) → Decidable (a = b)
  | [], [] => isTrue rfl
  | [], _ :: _ => isFalse (by intro e; cases e)
  | _ :: _, [] => isFalse (by intro e; cases e)
  | (k, x) :: xs, (l, y) :: ys =>
    if hk : k = l then
      match Any.decEq x y, Any.decEqFields xs ys with
      | isTrue h, isTrue hs => isTrue (by rw [hk, h, hs])
      | isFalse h, _ => isFalse (by intro e; cases e; exact h rfl)
      | _, isFalse hs => isFalse (by intro e; cases e; exact hs rfl)
    else isFalse (by intro e; cases e; exact hk rfl)
end

instance : DecidableEq Any := Any.decEq

/-- The type `GenJSON`: `struct{ Any }`. -/
abbrev GenJSON := Any

/-- The errors the package builds.  `ErrJSONPathDoesNotExists` is the package
variable of that name; the others are the fresh values made by `fmt.Errorf`:
"expected integer, found ...", "index out of bounds ...", "expected string,
found ..." and "incorrect or not existent json path '...'" (which carries the
whole argument list); and, from the typed accessors, "value ... is not an int",
"value ... is a float and not an int" and "value ... is not an float64". -/
inductive GoError where
  | ErrJSONPathDoesNotExists
  | expectedInteger (arg : Any)
  | indexOutOfBounds (i : Int)
  | expectedString (arg : Any)
  | incorrectPath (args : List Any)
  | notAnInt (args : List Any) (s : Any)
  | floatNotInt (s : Any)
  | notFloat64 (args : List Any) (s : Any)
  deriving DecidableEq

/-- How a call of a method returning `error` ends: `nil`, an error value, or a
run-time panic. -/
inductive Outcome where
  | ok
  | error (e : GoError)
  | panicked
  deriving DecidableEq

/-- Map read `v[str]`: the value bound to the key, `nil` when there is none. -/
def mapGet : List (String × Any) → String → Any
  | [], _ => Any.nil
  | (k, x) :: m, str => if k = str then x else mapGet m str

/-- Map write `v[str] = val`. -/
def mapSet : List (String × Any) → String → Any → List (String × Any)
  | [], str, val => [(str, val)]
  | (k, x) :: m, str, val => if k = str then (k, val) :: m else (k, x) :: mapSet m str val

/-- Map removal `delete(v, str)`. -/
def mapDelete : List (String × Any) → String → List (String × Any)
  | [], _ => []
  | (k, x) :: m, str => if k = str then mapDelete m str else (k, x) :: mapDelete m str

/-- The loop of `Unwind` from the current value `s` over the segments still to
be consumed; `args` is the whole argument list (it appears in one error). -/
def UnwindLoop (args : List Any) : Any → List Any → Any × Option GoError
  | s, [] => (s, none)
  | s, arg :: rest =>
    match s with
    | Any.slice v =>
      match arg with
      | Any.int i =>
        if i < 0 ∨ i ≥ (v.length : Int) then (s, some (GoError.indexOutOfBounds i))
        else UnwindLoop args (v.getD i.toNat Any.nil) rest
      | _ => (s, some (GoError.expectedInteger arg))
    | Any.map v =>
      match arg with
      | Any.string str => UnwindLoop args (mapGet v str) rest
      | _ => (s, some (GoError.expectedString arg))
    | _ => (s, some (GoError.incorrectPath args))

/-- The method `Unwind`: return the value at a path, with the error. -/
def Unwind (jsonTree : GenJSON) (args : List Any) : GenJSON × Option GoError :=
  UnwindLoop args jsonTree args

/-- The tree the caller holds once the container that `Unwind` reaches from `s`
along `path` has become `c`.  It is how an assignment through a slice or map
reference shows from the root: every container on the way keeps its other
elements, and the slot the path goes through holds the changed child. -/
def storeAt : Any → List Any → Any → Any
  | _, [], c => c
  | s, arg :: rest, c =>
    match s with
    | Any.slice v =>
      match arg with
      | Any.int i =>
        if i < 0 ∨ i ≥ (v.length : Int) then s
        else Any.slice (v.set i.toNat (storeAt (v.getD i.toNat Any.nil) rest c))
      | _ => s
    | Any.map v =>
      match arg with
      | Any.string str => Any.map (mapSet v str (storeAt (mapGet v str) rest c))
      | _ => s
    | _ => s

/-- The method `Set`: `args[0]` is the value, `args[1:]` the path of the slot.
`args[1:(len(args)-1)]` panics when there are fewer than two arguments. -/
def Set (jsonTree : GenJSON) (args : List Any) : GenJSON × Outcome :=
  match args with
  | [] => (jsonTree, Outcome.panicked)
  | [_] => (jsonTree, Outcome.panicked)
  | val :: a :: as =>
    match Unwind jsonTree (a :: as).dropLast with
    | (s, none) =>
      let arg := (a :: as).getLast (List.cons_ne_nil a as)
      match s with
      | Any.slice v =>
        match arg with
        | Any.int i =>
          if i < 0 ∨ i ≥ (v.length : Int) then
            (jsonTree, Outcome.error (GoError.indexOutOfBounds i))
          else
            (storeAt jsonTree (a :: as).dropLast (Any.slice (v.set i.toNat val)), Outcome.ok)
        | _ => (jsonTree, Outcome.error (GoError.expectedInteger arg))
      | Any.map v =>
        match arg with
        | Any.string str =>
          (storeAt jsonTree (a :: as).dropLast (Any.map (mapSet v str val)), Outcome.ok)
        | _ => (jsonTree, Outcome.error (GoError.expectedString arg))
      | _ => (jsonTree, Outcome.error GoError.ErrJSONPathDoesNotExists)
    | (_, some err) => (jsonTree, Outcome.error err)

/-- The copying loop of `Delete`,
`for k, idx := 0, 0; k < len(v); k++ { if i != k { vn[idx] = v[k]; idx++ } }`,
run over the elements of `v` from position `k` on. -/
def deleteLoop (i : Int) : List Any → Nat → Nat → List Any → List Any
  | [], _, _, vn => vn
  | x :: xs, k, idx, vn =>
    if i ≠ (k : Int) then deleteLoop i xs (k + 1) (idx + 1) (vn.set idx x)
    else deleteLoop i xs (k + 1) idx vn

/-- The method `Delete`.  In the slice case the result of the inner `Set` is
dropped; a panic inside it still ends the call. -/
def Delete (jsonTree : GenJSON) (args : List Any) : GenJSON × Outcome :=
  if args.length = 0 then (jsonTree, Outcome.error GoError.ErrJSONPathDoesNotExists)
  else
    match (if args.length > 1 then Unwind jsonTree args.dropLast else (jsonTree, none)) with
    | (_, some err) => (jsonTree, Outcome.error err)
    | (s, none) =>
      let arg := args.getLastD Any.nil
      match s with
      | Any.slice v =>
        match arg with
        | Any.int i =>
          if i < 0 ∨ i ≥ (v.length : Int) then
            (jsonTree, Outcome.error (GoError.indexOutOfBounds i))
          else
            let vn := deleteLoop i v 0 0 (List.replicate (v.length - 1) Any.nil)
            match Set jsonTree (Any.slice vn :: args.dropLast) with
            | (t, Outcome.panicked) => (t, Outcome.panicked)
            | (t, _) => (t, Outcome.ok)
        | _ => (jsonTree, Outcome.error (GoError.expectedInteger arg))
      | Any.map v =>
        match arg with
        | Any.string str =>
          (storeAt jsonTree args.dropLast (Any.map (mapDelete v str)), Outcome.ok)
        | _ => (jsonTree, Outcome.error (GoError.expectedString arg))
      | _ => (jsonTree, Outcome.error GoError.ErrJSONPathDoesNotExists)

/-- How one of the `for j, obj := range v` loops of `ScanObject` ends: with a
`return`, or by running off the slice, leaving `s` as the loop last set it. -/
inductive RangeExit where
  | returned (retval : GenJSON) (path : List Any) (ok : Bool)
  | done (s : GenJSON)
  deriving DecidableEq

/-- The loop over `v` for a wildcard that is the last segment; `j` is the index
of the first element of the list still to visit. -/
def scanRangeLast (predicate : Any → Bool) (path : List Any) :
    List Any → Nat → GenJSON → RangeExit
  | [], _, s => RangeExit.done s
  | obj :: objs, j, _ =>
    if predicate obj then
      RangeExit.returned obj (path.set (path.length - 1) (Any.int j)) true
    else scanRangeLast predicate path objs (j + 1) obj

/-- The loop over `v` for a wildcard with segments after it; `scan obj` is the
recursive call `s.ScanObject(predicate, rest...)` with `s.Any = obj`. -/
def scanRangeRest (scan : GenJSON → GenJSON × List Any × Bool) (path : List Any) :
    List Any → Nat → GenJSON → RangeExit
  | [], _, s => RangeExit.done s
  | obj :: objs, j, _ =>
    match scan obj with
    | (retval, par, true) =>
      RangeExit.returned retval (path.set (path.length - 1) (Any.int j) ++ par) true
    | (_, _, false) => scanRangeRest scan path objs (j + 1) obj

/-- The loop `for idx, arg := range args` of `ScanObject`, from the state
(`path`, `s`) over the arguments still to visit; `len(args)-1 == idx` holds
exactly when one argument is left. -/
def ScanLoop (predicate : Any → Bool) :
    List Any → GenJSON → List Any → GenJSON × List Any × Bool
  | path, s, [] => (s, path, false)
  | path, s, arg :: rest =>
    if rest.length = 0 ∧ predicate s = true then (s, path, true)
    else
      match s with
      | Any.slice v =>
        match arg with
        | Any.int i =>
          if i = -1 then
            if rest.length = 0 then
              match scanRangeLast predicate (path ++ [arg]) v 0 s with
              | RangeExit.returned retval p ok => (retval, p, ok)
              | RangeExit.done s1 => ScanLoop predicate (path ++ [arg]) s1 rest
            else
              match scanRangeRest (fun obj => ScanLoop predicate [] obj rest)
                  (path ++ [arg]) v 0 s with
              | RangeExit.returned retval p ok => (retval, p, ok)
              | RangeExit.done s1 => ScanLoop predicate (path ++ [arg]) s1 rest
          else if i < 0 ∨ i ≥ (v.length : Int) then (s, path ++ [arg], false)
          else
            match ScanLoop predicate [] s rest with
            | (s1, p1, true) => (s1, (path ++ [arg]) ++ p1, true)
            | (_, _, false) => ScanLoop predicate (path ++ [arg]) s rest
        | _ => (s, path ++ [arg], false)
      | Any.map v =>
        match arg with
        | Any.string str => ScanLoop predicate (path ++ [arg]) (mapGet v str) rest
        | _ => (s, path ++ [arg], false)
      | _ => (s, path ++ [arg], false)

/-- The method `ScanObject`: value, path and found flag. -/
def ScanObject (jsonTree : GenJSON) (predicate : Any → Bool) (args : List Any) :
    GenJSON × List Any × Bool :=
  ScanLoop predicate [] jsonTree args

/-! ### Values used in the examples -/

/-- The `float64` 1. -/
def f1 : Float64 := ⟨0x3FF0000000000000⟩

/-- The `float64` 2. -/
def f2 : Float64 := ⟨0x4000000000000000⟩

/-- The `float64` 3. -/
def f3 : Float64 := ⟨0x4008000000000000⟩

/-- The `float64` 99. -/
def f99 : Float64 := ⟨0x4058C00000000000⟩

/-- The document `{"a":{"b":1}}`. -/
def docAB : GenJSON := Any.map [("a", Any.map [("b", Any.float64 f1)])]

/-- The document `{"a":[1,2,3]}`. -/
def docA123 : GenJSON :=
  Any.map [("a", Any.slice [Any.float64 f1, Any.float64 f2, Any.float64 f3])]

/-- The document `{"items":[{"id":1,"ok":false},{"id":2,"ok":true}]}`. -/
def docItems : GenJSON :=
  Any.map [("items", Any.slice
    [Any.map [("id", Any.float64 f1), ("ok", Any.bool false)],
     Any.map [("id", Any.float64 f2), ("ok", Any.bool true)]])]

/-- The predicate "the node is a map whose key `ok` is `true`". -/
def hasOkTrue : Any → Bool
  | Any.map m =>
    match mapGet m "ok" with
    | Any.bool true => true
    | _ => false
  | _ => false

/-- The predicate that accepts only the string `"x"`. -/
def isX : Any → Bool
  | Any.string s => decide (s = "x")
  | _ => false

/-- The predicate that accepts only the empty slice. -/
def isEmptySlice : Any → Bool
  | Any.slice v => v.isEmpty
  | _ => false

/-! ### `float64` arithmetic used by the typed accessors -/

/-- What a `float64` denotes: a NaN, an infinity, or the finite number
`u * 2^(-1074)`; every finite `float64` is a whole multiple of the smallest
subnormal, so `u` is an integer.  The sign of a zero is not kept (nothing in
the package depends on it). -/
inductive FloatVal where
  | nan
  | inf (neg : Bool)
  | finite (u : Int)
  deriving DecidableEq

/-- The number 1 counted in units of `2^(-1074)`. -/
def floatOne : Int := ((2 ^ 1074 : Nat) : Int)

/-- The value of a bit pattern: sign bit 63, exponent bits 62-52,
mantissa bits 51-0. -/
def Float64.val (r : Float64) : FloatVal :=
  let e := r.bits / 2 ^ 52 % 2 ^ 11
  let m := r.bits % 2 ^ 52
  let neg := decide (r.bits / 2 ^ 63 % 2 = 1)
  if e = 2047 then (if m = 0 then FloatVal.inf neg else FloatVal.nan)
  else
    let mag : Nat := if e = 0 then m else (2 ^ 52 + m) * 2 ^ (e - 1)
    FloatVal.finite (if neg then -(mag : Int) else (mag : Int))

/-- The function `math.Trunc`: the integer part, rounding toward zero. -/
def mathTrunc : FloatVal → FloatVal
  | FloatVal.finite u => FloatVal.finite (Int.tdiv u floatOne * floatOne)
  | v => v

/-- The function `math.Abs`. -/
def mathAbs : FloatVal → FloatVal
  | FloatVal.nan => FloatVal.nan
  | FloatVal.inf _ => FloatVal.inf false
  | FloatVal.finite u => FloatVal.finite (Int.natAbs u : Int)

/-- The subtraction `a - b` of two `float64`, for operands whose exact
difference is a `float64` again, so that nothing is rounded.  The package
subtracts only `math.Trunc(r)` from `r`: the difference is smaller than 1 in
magnitude, a multiple of the unit in the last place of `r`, hence
representable. -/
def floatSub : FloatVal → FloatVal → FloatVal
  | FloatVal.finite a, FloatVal.finite b => FloatVal.finite (a - b)
  | FloatVal.nan, _ => FloatVal.nan
  | _, FloatVal.nan => FloatVal.nan
  | FloatVal.inf s, FloatVal.inf t => if s = t then FloatVal.nan else FloatVal.inf s
  | FloatVal.inf s, FloatVal.finite _ => FloatVal.inf s
  | FloatVal.finite _, FloatVal.inf t => FloatVal.inf (!t)

/-- The comparison `a > b` of two `float64`; false when either is a NaN. -/
def floatGt : FloatVal → FloatVal → Bool
  | FloatVal.finite a, FloatVal.finite b => decide (b < a)
  | FloatVal.inf false, FloatVal.finite _ => true
  | FloatVal.inf false, FloatVal.inf true => true
  | FloatVal.finite _, FloatVal.inf true => true
  | _, _ => false

/-- The constant `math.SmallestNonzeroFloat64`, `2^(-1074)`. -/
def SmallestNonzeroFloat64 : FloatVal := FloatVal.finite 1

/-- The value `math.NaN()` returns. -/
def mathNaN : Float64 := ⟨0x7FF8000000000001⟩

/-- The conversion `int(r)`, for a 64-bit `int`: the integer part of `r` when
it lies in `[-2^63, 2^63)`.  For every other `r` (NaN, the infinities, larger
magnitudes) Go leaves the result to the implementation: `conv r`, reduced to
the range of `int`, stands for what the platform gives. -/
def intOfFloat64 (conv : Float64 → Int) (r : Float64) : Int :=
  match r.val with
  | FloatVal.finite u =>
    if -(2 : Int) ^ 63 ≤ Int.tdiv u floatOne ∧ Int.tdiv u floatOne < (2 : Int) ^ 63 then
      Int.tdiv u floatOne
    else Int.bmod (conv r) (2 ^ 64)
  | _ => Int.bmod (conv r) (2 ^ 64)

/-- The method `Int`: the named results start as `0` and `nil`, and the error
of `Unwind` is returned with the `0`. -/
def GenJSONInt (conv : Float64 → Int) (jsonTree : GenJSON) (args : List Any) :
    Int × Option GoError :=
  match Unwind jsonTree args with
  | (s, none) =>
    match s with
    | Any.float64 r =>
      if floatGt (mathAbs (floatSub r.val (mathTrunc r.val))) SmallestNonzeroFloat64 then
        (0, some (GoError.floatNotInt s))
      else (intOfFloat64 conv r, none)
    | _ => (0, some (GoError.notAnInt args s))
  | (_, some err) => (0, some err)

/-- The method `Float`: the named result starts as `0`, and the error of
`Unwind` is returned with it. -/
def GenJSONFloat (jsonTree : GenJSON) (args : List Any) : Float64 × Option GoError :=
  match Unwind jsonTree args with
  | (s, none) =>
    match s with
    | Any.float64 r => (r, none)
    | _ => (mathNaN, some (GoError.notFloat64 args s))
  | (_, some err) => (⟨0⟩, some err)

/-- The `float64` 4. -/
def f4 : Float64 := ⟨0x4010000000000000⟩

/-- The `float64` 4.5. -/
def f4half : Float64 := ⟨0x4012000000000000⟩

/-- The smallest positive `float64`, `2^(-1074)` (the JSON number `5e-324`). -/
def fTiny : Float64 := ⟨1⟩

/-- The `float64` `2^63` (the JSON number `9223372036854775808`). -/
def fTwo63 : Float64 := ⟨0x43E0000000000000⟩

/-! # Theorems -/

/-! ## Maps -/

theorem mapGet_mapSet_same (m : List (String × Any)) (k : String) (x : Any) :
    mapGet (mapSet m k x) k = x := by
  induction m with
  | nil => simp [mapSet, mapGet]
  | cons b m ih =>
    obtain ⟨k0, y⟩ := b
    by_cases h : k0 = k
    · simp [mapSet, mapGet, h]
    · simp [mapSet, mapGet, h, ih]

theorem mapGet_mapSet_other (m : List (String × Any)) (k k' : String) (x : Any)
    (hk : k' ≠ k) : mapGet (mapSet m k x) k' = mapGet m k' := by
  induction m with
  | nil => simp [mapSet, mapGet, Ne.symm hk]
  | cons b m ih =>
    obtain ⟨k0, y⟩ := b
    by_cases h : k0 = k
    · subst h
      simp [mapSet, mapGet, Ne.symm hk]
    · by_cases h' : k0 = k'
      · subst h'
        simp [mapSet, mapGet, h]
      · simp [mapSet, mapGet, h, h', ih]

theorem mapGet_mapDelete_same (m : List (String × Any)) (k : String) :
    mapGet (mapDelete m k) k = Any.nil := by
  induction m with
  | nil => simp [mapDelete, mapGet]
  | cons b m ih =>
    obtain ⟨k0, y⟩ := b
    by_cases h : k0 = k
    · simp [mapDelete, h, ih]
    · simp [mapDelete, mapGet, h, ih]

theorem mapGet_mapDelete_other (m : List (String × Any)) (k k' : String)
    (hk : k' ≠ k) : mapGet (mapDelete m k) k' = mapGet m k' := by
  induction m with
  | nil => simp [mapDelete, mapGet]
  | cons b m ih =>
    obtain ⟨k0, y⟩ := b
    by_cases h : k0 = k
    · subst h
      simp [mapDelete, mapGet, Ne.symm hk, ih]
    · by_cases h' : k0 = k'
      · subst h'
        simp [mapDelete, mapGet, h]
      · simp [mapDelete, mapGet, h, h', ih]

/-! ## The copying loop of `Delete` -/

theorem deleteLoop_past (i : Int) (xs : List Any) :
    ∀ (k : Nat) (pre : List Any) (m : Nat), i < (k : Int) → xs.length ≤ m →
      deleteLoop i xs k pre.length (pre ++ List.replicate m Any.nil)
        = pre ++ xs ++ List.replicate (m - xs.length) Any.nil := by
  induction xs with
  | nil => intro k pre m _ _; simp [deleteLoop]
  | cons x xs ih =>
    intro k pre m hik hm
    have hne : i ≠ (k : Int) := by omega
    obtain ⟨m', rfl⟩ : ∃ m', m = m' + 1 := ⟨m - 1, by simp at hm; omega⟩
    have hset : (pre ++ List.replicate (m' + 1) Any.nil).set pre.length x
        = (pre ++ [x]) ++ List.replicate m' Any.nil := by
      simp [List.set_append, List.replicate_succ]
    have := ih (k + 1) (pre ++ [x]) m' (by push_cast; omega) (by simp at hm; omega)
    simp only [List.length_append, List.length_singleton] at this
    simp only [deleteLoop, hne, ne_eq, not_false_eq_true, if_true, hset, this]
    simp

theorem deleteLoop_upto (i : Int) (xs : List Any) :
    ∀ (k : Nat) (pre : List Any) (m : Nat), (k : Int) ≤ i → i < (k : Int) + xs.length →
      xs.length ≤ m + 1 →
      deleteLoop i xs k pre.length (pre ++ List.replicate m Any.nil)
        = pre ++ xs.eraseIdx (i.toNat - k) ++ List.replicate (m + 1 - xs.length) Any.nil := by
  induction xs with
  | nil => intro k pre m h1 h2 _; simp at h2; omega
  | cons x xs ih =>
    intro k pre m h1 h2 hm
    by_cases hik : i = (k : Int)
    · have h0 : i.toNat - k = 0 := by omega
      have := deleteLoop_past i xs (k + 1) pre m (by push_cast; omega) (by simp at hm; omega)
      rw [h0]
      simp only [deleteLoop, hik, ne_eq, not_true_eq_false, if_false, List.eraseIdx_zero,
        List.tail_cons]
      rw [← hik, this]
      simp
    · obtain ⟨m', rfl⟩ : ∃ m', m = m' + 1 := by
        refine ⟨m - 1, ?_⟩
        simp at h2 hm
        omega
      have hset : (pre ++ List.replicate (m' + 1) Any.nil).set pre.length x
          = (pre ++ [x]) ++ List.replicate m' Any.nil := by
        simp [List.set_append, List.replicate_succ]
      have := ih (k + 1) (pre ++ [x]) m' (by push_cast; omega)
        (by simp at h2; push_cast; omega) (by simp at hm; omega)
      simp only [List.length_append, List.length_singleton] at this
      obtain ⟨d, hd⟩ : ∃ d, i.toNat - k = d + 1 := ⟨i.toNat - k - 1, by omega⟩
      have hd' : i.toNat - (k + 1) = d := by omega
      simp only [deleteLoop, hik, ne_eq, not_false_eq_true, if_true, hset, this, hd, hd',
        List.eraseIdx_cons_succ]
      simp

theorem deleteLoop_eq_eraseIdx (i : Int) (v : List Any) (h0 : 0 ≤ i)
    (h1 : i < (v.length : Int)) :
    deleteLoop i v 0 0 (List.replicate (v.length - 1) Any.nil) = v.eraseIdx i.toNat := by
  have := deleteLoop_upto i v 0 [] (v.length - 1) (by simpa using h0) (by simpa using h1)
    (by omega)
  simp only [List.length_nil, List.nil_append, Nat.sub_zero] at this
  rw [this]
  have hz : v.length - 1 + 1 - v.length = 0 := by omega
  simp [hz]

/-! ## `Unwind` -/

theorem err_ne_ok {x c : Any} {e : GoError}
    (h : (x, some e) = ((c, none) : Any × Option GoError)) : False := by
  simp at h

theorem UnwindLoop_append (a : List Any) (q : List Any) :
    ∀ (p : List Any) (s x : Any), UnwindLoop a s p = (x, none) →
      UnwindLoop a s (p ++ q) = UnwindLoop a x q := by
  intro p
  induction p with
  | nil => intro s x h; simp [UnwindLoop] at h; simp [h]
  | cons arg rest ih =>
    intro s x h
    cases s <;> cases arg <;> simp only [UnwindLoop, List.cons_append] at h ⊢ <;>
      first
      | exact (err_ne_ok h).elim
      | (exact ih _ _ h)
      | (split_ifs at h ⊢ with hc
         · exact (err_ne_ok h).elim
         · exact ih _ _ h)

theorem UnwindLoop_append_err (a : List Any) (q : List Any) :
    ∀ (p : List Any) (s x : Any) (e : GoError), UnwindLoop a s p = (x, some e) →
      UnwindLoop a s (p ++ q) = (x, some e) := by
  intro p
  induction p with
  | nil => intro s x e h; simp [UnwindLoop] at h
  | cons arg rest ih =>
    intro s x e h
    cases s <;> cases arg <;> simp only [UnwindLoop, List.cons_append] at h ⊢ <;>
      first
      | (exact h)
      | (exact ih _ _ _ h)
      | (split_ifs at h ⊢ with hc
         · exact h
         · exact ih _ _ _ h)

theorem UnwindLoop_ok_args (a b : List Any) :
    ∀ (p : List Any) (s x : Any), UnwindLoop a s p = (x, none) →
      UnwindLoop b s p = (x, none) := by
  intro p
  induction p with
  | nil => intro s x h; simpa [UnwindLoop] using h
  | cons arg rest ih =>
    intro s x h
    cases s <;> cases arg <;> simp only [UnwindLoop] at h ⊢ <;>
      first
      | exact (err_ne_ok h).elim
      | (exact ih _ _ h)
      | (split_ifs at h ⊢ with hc
         · exact (err_ne_ok h).elim
         · exact ih _ _ h)

/-- A successful walk over `p ++ q` is a successful walk over `p` followed by
one over `q`. -/
theorem UnwindLoop_append_ok (a : List Any) (p q : List Any) (s y : Any)
    (h : UnwindLoop a s (p ++ q) = (y, none)) :
    ∃ x, UnwindLoop a s p = (x, none) ∧ UnwindLoop a x q = (y, none) := by
  rcases hp : UnwindLoop a s p with ⟨x, _ | e⟩
  · exact ⟨x, rfl, by rw [← UnwindLoop_append a q p s x hp]; exact h⟩
  · rw [UnwindLoop_append_err a q p s x e hp] at h
    exact absurd h (by simp)

theorem getD_set_same (v : List Any) (n : Nat) (x d : Any) (h : n < v.length) :
    (v.set n x).getD n d = x := by
  simp [List.getD_eq_getElem?_getD, h]

theorem UnwindLoop_storeAt (a b : List Any) (c' : Any) :
    ∀ (p : List Any) (s c : Any), UnwindLoop a s p = (c, none) →
      UnwindLoop b (storeAt s p c') p = (c', none) := by
  intro p
  induction p with
  | nil => intro s c _; simp [UnwindLoop, storeAt]
  | cons arg rest ih =>
    intro s c h
    cases s <;> cases arg <;> simp only [UnwindLoop, storeAt] at h ⊢ <;>
      first
      | exact (err_ne_ok h).elim
      | (rw [mapGet_mapSet_same]; exact ih _ _ h)
      | (split_ifs at h ⊢ with hc
         · exact (err_ne_ok h).elim
         · simp only [UnwindLoop, List.length_set, hc, if_false]
           rw [getD_set_same _ _ _ _ (by omega)]
           exact ih _ _ h)

/-! ## `Set` -/

theorem Set_args_dropLast (q : Any) (Q : List Any) (l : Any) :
    (q :: (Q ++ [l])).dropLast = q :: Q := by
  rw [← List.cons_append, List.dropLast_concat]

theorem Set_args_getLast (q : Any) (Q : List Any) (l : Any) :
    (q :: (Q ++ [l])).getLast (List.cons_ne_nil q (Q ++ [l])) = l := by
  simp [List.getLast_cons]

theorem Set_slice (V X : Any) (Q v : List Any) (i : Int)
    (hQ : Unwind V Q = (Any.slice v, none)) (h0 : 0 ≤ i) (h1 : i < (v.length : Int)) :
    Set V (X :: (Q ++ [Any.int i])) = (storeAt V Q (Any.slice (v.set i.toNat X)), Outcome.ok) := by
  have hc : ¬ (i < 0 ∨ i ≥ (v.length : Int)) := by omega
  cases Q with
  | nil => simp [Set, hQ, hc]
  | cons q Q =>
    simp only [List.cons_append, Set, Set_args_dropLast, Set_args_getLast, hQ, hc, if_false]

theorem Set_map (V X : Any) (Q : List Any) (m : List (String × Any)) (k : String)
    (hQ : Unwind V Q = (Any.map m, none)) :
    Set V (X :: (Q ++ [Any.string k])) = (storeAt V Q (Any.map (mapSet m k X)), Outcome.ok) := by
  cases Q with
  | nil => simp [Set, hQ]
  | cons q Q =>
    simp only [List.cons_append, Set, Set_args_dropLast, Set_args_getLast, hQ]

/-- Writing through a path that `Unwind` resolves succeeds, and the path then
resolves to the value written. -/
theorem Set_then_Unwind (V : GenJSON) (P : List Any) (X Y : Any) (hP : P ≠ [])
    (h : Unwind V P = (Y, none)) :
    (Set V (X :: P)).2 = Outcome.ok ∧ Unwind (Set V (X :: P)).1 P = (X, none) := by
  obtain ⟨Q, l, rfl⟩ : ∃ Q l, P = Q ++ [l] :=
    ⟨P.dropLast, P.getLast hP, (List.dropLast_append_getLast hP).symm⟩
  obtain ⟨c, hc, hl⟩ := UnwindLoop_append_ok _ Q [l] V Y h
  have hQ : Unwind V Q = (c, none) := UnwindLoop_ok_args _ _ Q V c hc
  have key : ∀ c', UnwindLoop (Q ++ [l]) c' [l] = (X, none) →
      Unwind (storeAt V Q c') (Q ++ [l]) = (X, none) := by
    intro c' h'
    have h1 := UnwindLoop_storeAt Q (Q ++ [l]) c' Q V c hQ
    unfold Unwind
    rw [UnwindLoop_append _ [l] Q _ _ h1]
    exact h'
  cases c <;> cases l <;> simp only [UnwindLoop] at hl <;>
    first | exact (err_ne_ok hl).elim | skip
  · rename_i v i
    split_ifs at hl with hb
    · simp at hl
    · rw [Set_slice V X Q v i hQ (by omega) (by omega)]
      refine ⟨rfl, key _ ?_⟩
      simp only [UnwindLoop, List.length_set, hb, if_false]
      rw [getD_set_same _ _ _ _ (by omega)]
  · rename_i m k
    rw [Set_map V X Q m k hQ]
    refine ⟨rfl, key _ ?_⟩
    simp only [UnwindLoop, mapGet_mapSet_same]

/-! ## `Delete` -/

theorem Delete_parent (V : Any) (Q : List Any) (l : Any) :
    (if (Q ++ [l]).length > 1 then Unwind V (Q ++ [l]).dropLast else (V, none))
      = Unwind V Q := by
  cases Q with
  | nil => simp [Unwind, UnwindLoop]
  | cons q Q =>
    have hlen : (q :: Q ++ [l]).length > 1 := by simp
    rw [if_pos hlen, List.dropLast_concat]

theorem Delete_map (V : Any) (Q : List Any) (m : List (String × Any)) (k : String)
    (hQ : Unwind V Q = (Any.map m, none)) :
    Delete V (Q ++ [Any.string k]) = (storeAt V Q (Any.map (mapDelete m k)), Outcome.ok) := by
  unfold Delete
  rw [Delete_parent, hQ]
  simp only [List.length_append, List.length_singleton, Nat.add_one_ne_zero, if_false,
    List.getLastD_concat, List.dropLast_concat]

theorem Delete_slice (V : Any) (Q v : List Any) (i : Int) (hne : Q ≠ [])
    (hQ : Unwind V Q = (Any.slice v, none)) (h0 : 0 ≤ i) (h1 : i < (v.length : Int)) :
    Delete V (Q ++ [Any.int i])
      = ((Set V (Any.slice (v.eraseIdx i.toNat) :: Q)).1, Outcome.ok) := by
  have hc : ¬ (i < 0 ∨ i ≥ (v.length : Int)) := by omega
  have hs := (Set_then_Unwind V Q (Any.slice (v.eraseIdx i.toNat)) _ hne hQ).1
  unfold Delete
  rw [Delete_parent, hQ]
  simp only [List.length_append, List.length_singleton, Nat.add_one_ne_zero, if_false,
    List.getLastD_concat, hc, List.dropLast_concat, deleteLoop_eq_eraseIdx i v h0 h1]
  rcases hset : Set V (Any.slice (v.eraseIdx i.toNat) :: Q) with ⟨t, o⟩
  rw [hset] at hs
  simp only at hs
  subst hs
  rfl

/-- The path to a map, extended by a key, resolves to the value of the key. -/
theorem Unwind_key (V : Any) (Q : List Any) (m : List (String × Any)) (k : String)
    (hQ : Unwind V Q = (Any.map m, none)) :
    Unwind V (Q ++ [Any.string k]) = (mapGet m k, none) := by
  have h1 := UnwindLoop_ok_args _ (Q ++ [Any.string k]) Q V _ hQ
  unfold Unwind
  rw [UnwindLoop_append _ _ Q _ _ h1]
  simp [UnwindLoop]

/-- After the container at `Q` has been overwritten, `Q` resolves to the new
container. -/
theorem Unwind_storeAt (V : Any) (Q : List Any) (c c' : Any)
    (hQ : Unwind V Q = (c, none)) : Unwind (storeAt V Q c') Q = (c', none) :=
  UnwindLoop_storeAt Q Q c' Q V c hQ

/-! ## `ScanObject` -/

theorem set_last_concat (path : List Any) (arg x : Any) :
    (path ++ [arg]).set ((path ++ [arg]).length - 1) x = path ++ [x] := by
  simp [List.set_append]

theorem scanRangeLast_none (p : Any → Bool) (path : List Any) :
    ∀ (xs : List Any) (j : Nat) (s : Any), (∀ x ∈ xs, p x = false) →
      scanRangeLast p path xs j s = RangeExit.done (xs.getLastD s) := by
  intro xs
  induction xs with
  | nil => intro j s _; simp [scanRangeLast]
  | cons x xs ih =>
    intro j s h
    have hx : p x = false := h x (List.mem_cons_self _ _)
    simp only [scanRangeLast, hx, Bool.false_eq_true, if_false]
    rw [ih (j + 1) x (fun y hy => h y (List.mem_cons_of_mem _ hy))]
    cases xs <;> simp [List.getLastD]

theorem scanRangeLast_found (p : Any → Bool) (path : List Any) (x : Any) (post : List Any)
    (hx : p x = true) :
    ∀ (pre : List Any) (j : Nat) (s : Any), (∀ y ∈ pre, p y = false) →
      scanRangeLast p path (pre ++ x :: post) j s
        = RangeExit.returned x (path.set (path.length - 1) (Any.int ((j + pre.length : Nat) : Int)))
            true := by
  intro pre
  induction pre with
  | nil => intro j s _; simp [scanRangeLast, hx]
  | cons y pre ih =>
    intro j s h
    have hy : p y = false := h y (List.mem_cons_self _ _)
    rw [List.cons_append, scanRangeLast, if_neg (by simp [hy])]
    rw [ih (j + 1) y (fun z hz => h z (List.mem_cons_of_mem _ hz))]
    simp only [List.length_cons]
    congr 4
    omega

theorem scanRangeRest_found (scan : GenJSON → GenJSON × List Any × Bool) (path : List Any)
    (a : Any) (post : List Any) (X : Any) (C : List Any) (ha : scan a = (X, C, true)) :
    ∀ (pre : List Any) (j : Nat) (s : Any), (∀ y ∈ pre, (scan y).2.2 = false) →
      scanRangeRest scan path (pre ++ a :: post) j s
        = RangeExit.returned X
            (path.set (path.length - 1) (Any.int ((j + pre.length : Nat) : Int)) ++ C) true := by
  intro pre
  induction pre with
  | nil => intro j s _; simp [scanRangeRest, ha]
  | cons y pre ih =>
    intro j s h
    have hy : (scan y).2.2 = false := h y (List.mem_cons_self _ _)
    rcases hsy : scan y with ⟨r1, r2, r3⟩
    rw [hsy] at hy
    simp only at hy
    subst hy
    rw [List.cons_append, scanRangeRest, hsy]
    simp only
    rw [ih (j + 1) y (fun z hz => h z (List.mem_cons_of_mem _ hz))]
    simp only [List.length_cons]
    congr 5
    omega

theorem scanRangeRest_none (scan : GenJSON → GenJSON × List Any × Bool) (path : List Any) :
    ∀ (xs : List Any) (j : Nat) (s : Any), (∀ y ∈ xs, (scan y).2.2 = false) →
      scanRangeRest scan path xs j s = RangeExit.done (xs.getLastD s) := by
  intro xs
  induction xs with
  | nil => intro j s _; simp [scanRangeRest]
  | cons y xs ih =>
    intro j s h
    have hy : (scan y).2.2 = false := h y (List.mem_cons_self _ _)
    rcases hsy : scan y with ⟨r1, r2, r3⟩
    rw [hsy] at hy
    simp only at hy
    subst hy
    simp only [scanRangeRest, hsy]
    rw [ih (j + 1) y (fun z hz => h z (List.mem_cons_of_mem _ hz))]
    cases xs <;> simp [List.getLastD]

/-- Through maps, along string keys that `Unwind` resolves, the scan only walks
down: with segments left after them nothing is tested on the way. -/
theorem ScanLoop_keys (p : Any → Bool) (R : List Any) (hR : R ≠ []) (a : List Any) :
    ∀ (Q : List Any) (path : List Any) (s c : Any), (∀ q ∈ Q, ∃ k, q = Any.string k) →
      UnwindLoop a s Q = (c, none) →
      ScanLoop p path s (Q ++ R) = ScanLoop p (path ++ Q) c R := by
  intro Q
  induction Q with
  | nil =>
    intro path s c _ h
    simp [UnwindLoop] at h
    simp [h]
  | cons q Q ih =>
    intro path s c hk h
    obtain ⟨k, rfl⟩ := hk q (List.mem_cons_self _ _)
    have hlen : ¬ ((Q ++ R).length = 0 ∧ p s = true) := by
      intro hh
      have := hh.1
      simp at this
      exact hR this.2
    cases s <;> simp only [UnwindLoop] at h <;> first | exact (err_ne_ok h).elim | skip
    rename_i m
    rw [List.cons_append, ScanLoop, if_neg hlen]
    rw [ih (path ++ [Any.string k]) (mapGet m k) c
      (fun q hq => hk q (List.mem_cons_of_mem _ hq)) h]
    simp

theorem scanRangeLast_path (p : Any → Bool) (path : List Any) (arg : Any) :
    ∀ (xs : List Any) (j : Nat) (s : Any),
      scanRangeLast p (path ++ [arg]) xs j s =
        match scanRangeLast p ([] ++ [arg]) xs j s with
        | RangeExit.returned x q ok => RangeExit.returned x (path ++ q) ok
        | RangeExit.done s1 => RangeExit.done s1 := by
  intro xs
  induction xs with
  | nil => intro j s; simp [scanRangeLast]
  | cons x xs ih =>
    intro j s
    by_cases hx : p x = true
    · simp [scanRangeLast, hx, List.set_append]
    · simp only [scanRangeLast, hx, if_false]
      exact ih (j + 1) x

theorem scanRangeRest_path (scan : GenJSON → GenJSON × List Any × Bool) (path : List Any)
    (arg : Any) :
    ∀ (xs : List Any) (j : Nat) (s : Any),
      scanRangeRest scan (path ++ [arg]) xs j s =
        match scanRangeRest scan ([] ++ [arg]) xs j s with
        | RangeExit.returned x q ok => RangeExit.returned x (path ++ q) ok
        | RangeExit.done s1 => RangeExit.done s1 := by
  intro xs
  induction xs with
  | nil => intro j s; simp [scanRangeRest]
  | cons x xs ih =>
    intro j s
    rcases hx : scan x with ⟨r1, r2, _ | _⟩
    · simp only [scanRangeRest, hx]
      exact ih (j + 1) x
    · simp [scanRangeRest, hx, List.set_append]

/-- The found flag and value of a scan do not depend on the path gathered so
far, which only comes in front of the path returned. -/
theorem ScanLoop_path (p : Any → Bool) :
    ∀ (R : List Any) (path : List Any) (s : Any),
      ScanLoop p path s R
        = ((ScanLoop p [] s R).1, path ++ (ScanLoop p [] s R).2.1, (ScanLoop p [] s R).2.2) := by
  intro R
  induction R with
  | nil => intro path s; simp [ScanLoop]
  | cons arg rest ih =>
    intro path s
    have cont : ∀ s1, ScanLoop p (path ++ [arg]) s1 rest
        = ((ScanLoop p ([] ++ [arg]) s1 rest).1, path ++ (ScanLoop p ([] ++ [arg]) s1 rest).2.1,
            (ScanLoop p ([] ++ [arg]) s1 rest).2.2) := by
      intro s1
      rw [ih (path ++ [arg]) s1, ih ([] ++ [arg]) s1]
      simp
    by_cases h1 : rest.length = 0 ∧ p s = true
    · simp only [ScanLoop, h1, and_self, if_true, List.append_nil]
    · cases s <;> cases arg <;> simp only [ScanLoop, h1, if_false, List.append_assoc] <;>
        first
        | rfl
        | exact cont _
        | skip
      rename_i v i
      by_cases hw : i = -1
      · simp only [hw, if_true]
        by_cases hl : rest.length = 0
        · simp only [hl, if_true]
          rw [scanRangeLast_path]
          rcases scanRangeLast p ([] ++ [Any.int (-1)]) v 0 (Any.slice v) with ⟨x, q, ok⟩ | s1
          · simp
          · simp only
            rw [← hw]
            exact cont s1
        · simp only [hl, if_false]
          rw [scanRangeRest_path]
          rcases scanRangeRest (fun obj => ScanLoop p [] obj rest) ([] ++ [Any.int (-1)]) v 0
              (Any.slice v) with ⟨x, q, ok⟩ | s1
          · simp
          · simp only
            rw [← hw]
            exact cont s1
      · simp only [hw, if_false]
        by_cases hb : i < 0 ∨ i ≥ (v.length : Int)
        · simp only [hb, if_true, List.nil_append]
        · simp only [hb, if_false]
          rcases hr : ScanLoop p [] (Any.slice v) rest with ⟨r1, r2, _ | _⟩
          · simp only
            exact cont _
          · simp

/-! ## The claims -/

/-- C1. Write-then-read consistency of `Set` and `Unwind`: for every tree `V`,
every non-empty path `P` and every value `X`, if `Unwind(P...)` succeeds on `V`
then `Set(X, P...)` returns no error, and `Unwind(P...)` on the tree after the
`Set` succeeds and yields `X`. -/
theorem c1_set_then_unwind (V : GenJSON) (P : List Any) (X Y : Any) (hP : P ≠ [])
    (h : Unwind V P = (Y, none)) :
    (Set V (X :: P)).2 = Outcome.ok ∧ Unwind (Set V (X :: P)).1 P = (X, none) :=
  Set_then_Unwind V P X Y hP h

/-- C1 at `{"a":{"b":1}}`: `Set(99, "a", "b")` followed by `Unwind("a", "b")`
yields 99. -/
theorem c1_set_then_unwind_witness :
    Unwind docAB [Any.string "a", Any.string "b"] = (Any.float64 f1, none) ∧
    (Set docAB [Any.float64 f99, Any.string "a", Any.string "b"]).2 = Outcome.ok ∧
    Unwind (Set docAB [Any.float64 f99, Any.string "a", Any.string "b"]).1
      [Any.string "a", Any.string "b"] = (Any.float64 f99, none) :=
  ⟨by decide,
   c1_set_then_unwind docAB [Any.string "a", Any.string "b"] (Any.float64 f99) (Any.float64 f1)
     (by decide) (by decide)⟩

/-- C2. Delete of a slice element: for every tree `V` and path `Q ++ [i]` with
`Q` non-empty, if `Unwind(Q...)` yields a slice `A` and `0 ≤ i < len(A)`, then
`Delete` returns no error, and afterwards `Unwind(Q...)` yields a slice `B` of
length `len(A) - 1` that is `A` with element `i` removed: the elements before
`i` keep their index and those after `i` move down by one. -/
theorem c2_delete_slice_element (V : GenJSON) (Q A : List Any) (i : Int) (hQ : Q ≠ [])
    (hA : Unwind V Q = (Any.slice A, none)) (h0 : 0 ≤ i) (h1 : i < (A.length : Int)) :
    (Delete V (Q ++ [Any.int i])).2 = Outcome.ok ∧
    ∃ B : List Any, Unwind (Delete V (Q ++ [Any.int i])).1 Q = (Any.slice B, none) ∧
      B = A.eraseIdx i.toNat ∧ B.length = A.length - 1 ∧
      (∀ k : Nat, k < i.toNat → B[k]? = A[k]?) ∧
      (∀ k : Nat, i.toNat ≤ k → B[k]? = A[k + 1]?) := by
  rw [Delete_slice V Q A i hQ hA h0 h1]
  refine ⟨rfl, A.eraseIdx i.toNat, ?_, rfl, ?_, ?_, ?_⟩
  · exact (Set_then_Unwind V Q _ _ hQ hA).2
  · rw [List.length_eraseIdx]
    have : i.toNat < A.length := by omega
    simp [this]
  · intro k hk
    exact List.getElem?_eraseIdx_of_lt A i.toNat k hk
  · intro k hk
    exact List.getElem?_eraseIdx_of_ge A i.toNat k hk

/-- C2 at `{"a":[1,2,3]}`: after `Delete("a", 1)` the path `"a"` holds `[1,3]`. -/
theorem c2_delete_slice_element_witness :
    Unwind docA123 [Any.string "a"]
      = (Any.slice [Any.float64 f1, Any.float64 f2, Any.float64 f3], none) ∧
    (Delete docA123 ([Any.string "a"] ++ [Any.int 1])).2 = Outcome.ok ∧
    ∃ B : List Any,
      Unwind (Delete docA123 ([Any.string "a"] ++ [Any.int 1])).1 [Any.string "a"]
        = (Any.slice B, none) ∧
      B = [Any.float64 f1, Any.float64 f2, Any.float64 f3].eraseIdx (1 : Int).toNat ∧
      B.length = [Any.float64 f1, Any.float64 f2, Any.float64 f3].length - 1 ∧
      (∀ k : Nat, k < (1 : Int).toNat →
        B[k]? = [Any.float64 f1, Any.float64 f2, Any.float64 f3][k]?) ∧
      (∀ k : Nat, (1 : Int).toNat ≤ k →
        B[k]? = [Any.float64 f1, Any.float64 f2, Any.float64 f3][k + 1]?) :=
  ⟨by decide,
   c2_delete_slice_element docA123 [Any.string "a"]
     [Any.float64 f1, Any.float64 f2, Any.float64 f3] 1 (by decide) (by decide) (by decide)
     (by decide)⟩

/-- C3. Delete of a map key: for every tree `V` and path `Q ++ [k]` (`Q` may be
empty) where `Unwind(Q...)` yields a map `O` and `k` is a string, `Delete`
returns no error whether or not `k` is bound in `O`; afterwards `Unwind` of the
same path succeeds and yields `nil`, and every other key of `O` resolves to the
value it had before. -/
theorem c3_delete_map_key (V : GenJSON) (Q : List Any) (O : List (String × Any)) (k : String)
    (hO : Unwind V Q = (Any.map O, none)) :
    (Delete V (Q ++ [Any.string k])).2 = Outcome.ok ∧
    Unwind (Delete V (Q ++ [Any.string k])).1 (Q ++ [Any.string k]) = (Any.nil, none) ∧
    ∀ k' : String, k' ≠ k →
      Unwind (Delete V (Q ++ [Any.string k])).1 (Q ++ [Any.string k']) = (mapGet O k', none) ∧
      Unwind V (Q ++ [Any.string k']) = (mapGet O k', none) := by
  rw [Delete_map V Q O k hO]
  have hnew := Unwind_storeAt V Q _ (Any.map (mapDelete O k)) hO
  refine ⟨rfl, ?_, ?_⟩
  · rw [Unwind_key _ Q _ k hnew, mapGet_mapDelete_same]
  · intro k' hk'
    refine ⟨?_, Unwind_key V Q O k' hO⟩
    rw [Unwind_key _ Q _ k' hnew, mapGet_mapDelete_other O k k' hk']

/-- C3 at `{"a":{"b":1}}`: `Delete("a", "b")` returns no error and the path
`"a", "b"` then resolves to `nil`. -/
theorem c3_delete_map_key_witness :
    Unwind docAB [Any.string "a"] = (Any.map [("b", Any.float64 f1)], none) ∧
    ((Delete docAB ([Any.string "a"] ++ [Any.string "b"])).2 = Outcome.ok ∧
     Unwind (Delete docAB ([Any.string "a"] ++ [Any.string "b"])).1
       ([Any.string "a"] ++ [Any.string "b"]) = (Any.nil, none) ∧
     ∀ k' : String, k' ≠ "b" →
       Unwind (Delete docAB ([Any.string "a"] ++ [Any.string "b"])).1
         ([Any.string "a"] ++ [Any.string k']) = (mapGet [("b", Any.float64 f1)] k', none) ∧
       Unwind docAB ([Any.string "a"] ++ [Any.string k'])
         = (mapGet [("b", Any.float64 f1)] k', none)) :=
  ⟨by decide,
   c3_delete_map_key docAB [Any.string "a"] [("b", Any.float64 f1)] "b" (by decide)⟩

theorem split_at_index (A : List Any) (j : Nat) (hj : j < A.length) :
    A = A.take j ++ A.getD j Any.nil :: A.drop (j + 1) ∧ (A.take j).length = j ∧
      ∀ y ∈ A.take j, ∃ j', j' < j ∧ y = A.getD j' Any.nil := by
  refine ⟨?_, ?_, ?_⟩
  · rw [List.getD_eq_getElem A Any.nil hj, ← List.drop_eq_getElem_cons hj,
      List.take_append_drop]
  · rw [List.length_take]
    omega
  · intro y hy
    obtain ⟨j', hj', rfl⟩ := List.mem_take_iff_getElem.mp hy
    have h1 : j' < j := by omega
    have h2 : j' < A.length := by omega
    exact ⟨j', h1, (List.getD_eq_getElem A Any.nil h2).symm⟩

/-- The scan of a slice with a last wildcard segment, when the predicate does
not accept the slice itself and first accepts the element after `pre`. -/
theorem ScanLoop_last_wildcard_found (p : Any → Bool) (path pre post : List Any) (x : Any)
    (hA : p (Any.slice (pre ++ x :: post)) = false) (hpre : ∀ y ∈ pre, p y = false)
    (hx : p x = true) :
    ScanLoop p path (Any.slice (pre ++ x :: post)) [Any.int (-1)]
      = (x, path ++ [Any.int (pre.length : Int)], true) := by
  simp only [ScanLoop, hA, List.length_nil, Bool.false_eq_true, and_false, if_false, if_true]
  rw [scanRangeLast_found p _ x post hx pre 0 _ hpre, set_last_concat]
  simp

theorem ScanLoop_last_wildcard_none (p : Any → Bool) (path A : List Any)
    (hA : p (Any.slice A) = false) (hall : ∀ y ∈ A, p y = false) :
    ScanLoop p path (Any.slice A) [Any.int (-1)]
      = (A.getLastD (Any.slice A), path ++ [Any.int (-1)], false) := by
  simp only [ScanLoop, hA, List.length_nil, Bool.false_eq_true, and_false, if_false, if_true]
  rw [scanRangeLast_none p _ A 0 _ hall]

/-- C4. `ScanObject` with a final wildcard: for every predicate `p`, tree `V`
and path `Q` (may be empty) of string keys that `Unwind` resolves to a slice
`A`, `ScanObject(p, Q..., -1)` returns `(A, Q, true)` if `p` accepts `A` itself;
otherwise, if some element satisfies `p`, it returns `(A[j], Q ++ [j], true)`
for the least index `j` with `p(A[j])`; and it returns found = false if no
element satisfies `p`. -/
theorem c4_scan_final_wildcard (p : Any → Bool) (V : GenJSON) (Q A : List Any)
    (hQ : ∀ q ∈ Q, ∃ k, q = Any.string k) (hA : Unwind V Q = (Any.slice A, none)) :
    (p (Any.slice A) = true →
      ScanObject V p (Q ++ [Any.int (-1)]) = (Any.slice A, Q, true)) ∧
    (p (Any.slice A) = false → ∀ j : Nat, j < A.length → p (A.getD j Any.nil) = true →
      (∀ j' : Nat, j' < j → p (A.getD j' Any.nil) = false) →
      ScanObject V p (Q ++ [Any.int (-1)])
        = (A.getD j Any.nil, Q ++ [Any.int (j : Int)], true)) ∧
    (p (Any.slice A) = false → (∀ x ∈ A, p x = false) →
      (ScanObject V p (Q ++ [Any.int (-1)])).2.2 = false) := by
  have hdown : ScanObject V p (Q ++ [Any.int (-1)])
      = ScanLoop p Q (Any.slice A) [Any.int (-1)] := by
    unfold ScanObject
    rw [ScanLoop_keys p [Any.int (-1)] (by simp) Q Q [] V (Any.slice A) hQ hA]
    simp
  rw [hdown]
  refine ⟨?_, ?_, ?_⟩
  · intro hp
    simp [ScanLoop, hp]
  · intro hp j hj hpj hleast
    obtain ⟨hsplit, hlen, hmem⟩ := split_at_index A j hj
    have hpre : ∀ y ∈ A.take j, p y = false := by
      intro y hy
      obtain ⟨j', hj', rfl⟩ := hmem y hy
      exact hleast j' hj'
    have := ScanLoop_last_wildcard_found p Q (A.take j) (A.drop (j + 1)) (A.getD j Any.nil)
      (by rw [← hsplit]; exact hp) hpre hpj
    rw [← hsplit, hlen] at this
    exact this
  · intro hp hall
    rw [ScanLoop_last_wildcard_none p Q A hp hall]

/-- C4 at `{"items":[{"id":1,"ok":false},{"id":2,"ok":true}]}` with the
predicate "has key ok equal to true" and the path `"items", -1`: the second
element, the path `["items", 1]`, found. -/
theorem c4_scan_final_wildcard_witness :
    ScanObject docItems hasOkTrue ([Any.string "items"] ++ [Any.int (-1)])
      = (Any.map [("id", Any.float64 f2), ("ok", Any.bool true)],
         [Any.string "items"] ++ [Any.int 1], true) :=
  (c4_scan_final_wildcard hasOkTrue docItems [Any.string "items"]
      [Any.map [("id", Any.float64 f1), ("ok", Any.bool false)],
       Any.map [("id", Any.float64 f2), ("ok", Any.bool true)]]
      (by intro q hq; exact ⟨"items", by simpa using hq⟩) (by decide)).2.1
    (by decide) 1 (by decide) (by decide) (by decide)

/-- C5, at the failing input `["a", "x"]` with the predicate "is the string x"
and the path `0, -1`: `ScanObject` reports the match `"x"` with the path
`[0, 1]`, and `Unwind(0, 1)` on the same tree fails (it stops at `"a"`). -/
theorem c5_scan_path_not_resolved :
    ScanObject (Any.slice [Any.string "a", Any.string "x"]) isX [Any.int 0, Any.int (-1)]
      = (Any.string "x", [Any.int 0, Any.int 1], true) ∧
    Unwind (Any.slice [Any.string "a", Any.string "x"]) [Any.int 0, Any.int 1]
      = (Any.string "a", some (GoError.incorrectPath [Any.int 0, Any.int 1])) := by
  decide

/-- The scan of a slice with a wildcard that is not the last segment, when the
scan of the remaining path first succeeds on the element after `pre`. -/
theorem ScanLoop_wildcard_found (p : Any → Bool) (path pre post R : List Any) (a X : Any)
    (C : List Any) (hR : R ≠ []) (hpre : ∀ y ∈ pre, (ScanLoop p [] y R).2.2 = false)
    (ha : ScanLoop p [] a R = (X, C, true)) :
    ScanLoop p path (Any.slice (pre ++ a :: post)) (Any.int (-1) :: R)
      = (X, path ++ Any.int (pre.length : Int) :: C, true) := by
  have hlen : ¬ R.length = 0 := by
    intro h
    exact hR (List.length_eq_zero.mp h)
  simp only [ScanLoop, hlen, false_and, if_false, if_true]
  rw [scanRangeRest_found (fun obj => ScanLoop p [] obj R) _ a post X C ha pre 0 _ hpre,
    set_last_concat]
  simp

/-- With a non-empty slice, a wildcard that is not the last segment and no
element on which the scan of the remaining path succeeds, nothing is found. -/
theorem ScanLoop_wildcard_none (p : Any → Bool) (path A R : List Any) (hR : R ≠ [])
    (hA : A ≠ []) (hall : ∀ y ∈ A, (ScanLoop p [] y R).2.2 = false) :
    (ScanLoop p path (Any.slice A) (Any.int (-1) :: R)).2.2 = false := by
  have hlen : ¬ R.length = 0 := by
    intro h
    exact hR (List.length_eq_zero.mp h)
  simp only [ScanLoop, hlen, false_and, if_false, if_true]
  rw [scanRangeRest_none (fun obj => ScanLoop p [] obj R) _ A 0 _ hall]
  simp only
  rw [ScanLoop_path]
  simp only
  apply hall
  cases A with
  | nil => exact absurd rfl hA
  | cons x xs =>
    rw [List.getLastD_cons]
    exact List.getLastD_mem_cons xs x

/-- On a slice, a concrete in-range index followed by more segments scans the
remaining path against the same slice, not against the element. -/
theorem ScanObject_index_same_slice (p : Any → Bool) (A R : List Any) (i : Int)
    (hR : R ≠ []) (hw : i ≠ -1) (h0 : 0 ≤ i) (h1 : i < (A.length : Int)) :
    ScanObject (Any.slice A) p (Any.int i :: R)
      = ((ScanObject (Any.slice A) p R).1, Any.int i :: (ScanObject (Any.slice A) p R).2.1,
          (ScanObject (Any.slice A) p R).2.2) := by
  have hlen : ¬ R.length = 0 := by
    intro h
    exact hR (List.length_eq_zero.mp h)
  have hb : ¬ (i < 0 ∨ i ≥ (A.length : Int)) := by omega
  unfold ScanObject
  rw [ScanLoop]
  simp only [hlen, false_and, if_false, hw, hb]
  rcases hr : ScanLoop p [] (Any.slice A) R with ⟨r1, r2, _ | _⟩
  · simp only
    rw [ScanLoop_path, hr]
    simp
  · simp

/-- C6. `ScanObject` with a wildcard that is not the last segment is
depth-first and first-match-wins in ascending index order: for every predicate
`p`, slice `A` and non-empty remaining path `R`, if `j` is the least index such
that `ScanObject(p, R...)` on `A[j]` returns found = true, with result
`(X, C, true)`, then `ScanObject(p, -1, R...)` on `A` returns
`(X, [j] ++ C, true)`; the elements after `j` are not consulted: the result is
the same whatever follows `A[j]` in the slice. -/
theorem c6_scan_wildcard_first_match (p : Any → Bool) (A R : List Any) (j : Nat)
    (X : GenJSON) (C : List Any) (hR : R ≠ []) (hj : j < A.length)
    (hfound : ScanObject (A.getD j Any.nil) p R = (X, C, true))
    (hleast : ∀ j' : Nat, j' < j → (ScanObject (A.getD j' Any.nil) p R).2.2 = false) :
    ScanObject (Any.slice A) p (Any.int (-1) :: R) = (X, [Any.int (j : Int)] ++ C, true) ∧
    ∀ later : List Any,
      ScanObject (Any.slice (A.take j ++ A.getD j Any.nil :: later)) p (Any.int (-1) :: R)
        = (X, [Any.int (j : Int)] ++ C, true) := by
  obtain ⟨hsplit, hlen, hmem⟩ := split_at_index A j hj
  have hpre : ∀ y ∈ A.take j, (ScanLoop p [] y R).2.2 = false := by
    intro y hy
    obtain ⟨j', hj', rfl⟩ := hmem y hy
    exact hleast j' hj'
  have key : ∀ later : List Any,
      ScanObject (Any.slice (A.take j ++ A.getD j Any.nil :: later)) p (Any.int (-1) :: R)
        = (X, [Any.int (j : Int)] ++ C, true) := by
    intro later
    have := ScanLoop_wildcard_found p [] (A.take j) later R (A.getD j Any.nil) X C hR hpre
      hfound
    rw [hlen] at this
    exact this
  refine ⟨?_, key⟩
  have := key (A.drop (j + 1))
  rw [← hsplit] at this
  exact this

/-- C6 at `[["a"], ["x"], ["x"]]` with the predicate "is the string x" and the
path `-1, -1`: the match is the `"x"` of the element at index 1, with the path
`[1, 0]`. -/
theorem c6_scan_wildcard_first_match_witness :
    ScanObject (Any.slice [Any.slice [Any.string "a"], Any.slice [Any.string "x"],
        Any.slice [Any.string "x"]]) isX (Any.int (-1) :: [Any.int (-1)])
      = (Any.string "x", [Any.int 1] ++ [Any.int 0], true) :=
  (c6_scan_wildcard_first_match isX
    [Any.slice [Any.string "a"], Any.slice [Any.string "x"], Any.slice [Any.string "x"]]
    [Any.int (-1)] 1 (Any.string "x") [Any.int 0] (by decide) (by decide) (by decide)
    (by decide)).1

/-- C7, at the failing input: the empty slice, the predicate "is the empty
slice" and the path `-1, -1`.  No element of the slice exists, so the scan of
the remaining path `-1` finds nothing on every element, and `ScanObject`
reports found = true, with the slice itself and the path `[-1]`. -/
theorem c7_scan_wildcard_empty_slice :
    (∀ x ∈ ([] : List Any), (ScanObject x isEmptySlice [Any.int (-1)]).2.2 = false) ∧
    ScanObject (Any.slice []) isEmptySlice [Any.int (-1), Any.int (-1)]
      = (Any.slice [], [Any.int (-1)], true) := by
  refine ⟨?_, by decide⟩
  intro x hx
  cases hx

/-- C8, at the failing input `[["x"]]` with the predicate "is the string x" and
the path `0, -1`: the scan of the remaining path `-1` on the element `["x"]`
finds `"x"` with the path `[0]`, and `ScanObject` on the whole reports
found = false. -/
theorem c8_scan_index_not_descended :
    ScanObject (Any.slice [Any.string "x"]) isX [Any.int (-1)]
      = (Any.string "x", [Any.int 0], true) ∧
    ScanObject (Any.slice [Any.slice [Any.string "x"]]) isX [Any.int 0, Any.int (-1)]
      = (Any.slice [Any.string "x"], [Any.int 0, Any.int (-1)], false) := by
  decide

/-- C9. `ScanObject` never raises and treats structural path misuse as a
negative result: for every tree `V`, predicate `p` rejecting `V` and non-empty
path `arg :: rest`, it returns found = false (with `V` and the path `[arg]`)
whenever `V` is a slice and `arg` is not an integer or is an integer other
than -1 outside `[0, len(V))`, or `V` is a map and `arg` is not a string, or
`V` is neither a slice nor a map; and on every input it ends with a (value,
path, found) triple: the scan is a total function, defined by recursion on the
argument list. -/
theorem c9_scan_misuse_not_found (p : Any → Bool) (V : GenJSON) (arg : Any) (rest : List Any)
    (hp : p V = false)
    (hmis :
      (∃ v : List Any, V = Any.slice v ∧
        ((∀ i : Int, arg ≠ Any.int i) ∨
          ∃ i : Int, arg = Any.int i ∧ i ≠ -1 ∧ (i < 0 ∨ i ≥ (v.length : Int)))) ∨
      (∃ m : List (String × Any), V = Any.map m ∧ ∀ k : String, arg ≠ Any.string k) ∨
      ((∀ v : List Any, V ≠ Any.slice v) ∧ ∀ m : List (String × Any), V ≠ Any.map m)) :
    ScanObject V p (arg :: rest) = (V, [arg], false) ∧
    (ScanObject V p (arg :: rest)).2.2 = false ∧
    ∀ (W : GenJSON) (q : Any → Bool) (P : List Any),
      ∃ (X : GenJSON) (C : List Any) (found : Bool), ScanObject W q P = (X, C, found) := by
  have main : ScanObject V p (arg :: rest) = (V, [arg], false) := by
    rcases hmis with ⟨v, rfl, hseg⟩ | ⟨m, rfl, hseg⟩ | ⟨hs, hm⟩
    · rcases hseg with hni | ⟨i, rfl, hw, hb⟩
      · cases arg <;> first | exact ((hni _) rfl).elim | simp [ScanObject, ScanLoop, hp]
      · simp [ScanObject, ScanLoop, hp, hw, hb]
    · cases arg <;> first | exact ((hseg _) rfl).elim | simp [ScanObject, ScanLoop, hp]
    · cases V <;>
        first
        | exact ((hs _) rfl).elim
        | exact ((hm _) rfl).elim
        | simp [ScanObject, ScanLoop, hp]
  refine ⟨main, by rw [main], ?_⟩
  intro W q P
  exact ⟨(ScanObject W q P).1, (ScanObject W q P).2.1, (ScanObject W q P).2.2, rfl⟩

/-- C9 at the slice `[nil]` with the predicate "is the string x": the string
segment `"k"` gives found = false. -/
theorem c9_scan_misuse_not_found_witness :
    isX (Any.slice [Any.nil]) = false ∧
    ScanObject (Any.slice [Any.nil]) isX (Any.string "k" :: [Any.int 0])
      = (Any.slice [Any.nil], [Any.string "k"], false) :=
  ⟨by decide,
   (c9_scan_misuse_not_found isX (Any.slice [Any.nil]) (Any.string "k") [Any.int 0] (by decide)
     (Or.inl ⟨[Any.nil], rfl, Or.inl (fun _ h => Any.noConfusion h)⟩)).1⟩

/-- C10. The step of `Unwind` on a slice: for every slice `A` and segment `s`,
`Unwind(s)` on `A` succeeds iff `s` is an integer `i` with `0 ≤ i < len(A)`, and
then yields `A[i]`; an integer outside that range (the wildcard -1 included)
fails with the index-out-of-bounds error, and a segment that is not an integer
fails with the expected-integer error.  `Unwind("a", 5)` on `{"a":[1,2,3]}`
fails with index out of bounds. -/
theorem c10_unwind_slice_step (A : List Any) (s : Any) :
    ((Unwind (Any.slice A) [s]).2 = none ↔
      ∃ i : Int, s = Any.int i ∧ 0 ≤ i ∧ i < (A.length : Int)) ∧
    (∀ i : Int, s = Any.int i → 0 ≤ i → ∀ h : i.toNat < A.length,
      Unwind (Any.slice A) [s] = (A[i.toNat], none)) ∧
    (∀ i : Int, s = Any.int i → (i < 0 ∨ (A.length : Int) ≤ i) →
      Unwind (Any.slice A) [s] = (Any.slice A, some (GoError.indexOutOfBounds i))) ∧
    ((∀ i : Int, s ≠ Any.int i) →
      Unwind (Any.slice A) [s] = (Any.slice A, some (GoError.expectedInteger s))) ∧
    Unwind (Any.slice A) [Any.int (-1)]
      = (Any.slice A, some (GoError.indexOutOfBounds (-1))) ∧
    Unwind docA123 [Any.string "a", Any.int 5]
      = (Any.slice [Any.float64 f1, Any.float64 f2, Any.float64 f3],
          some (GoError.indexOutOfBounds 5)) := by
  refine ⟨?_, ?_, ?_, ?_, ?_, by decide⟩
  · constructor
    · intro h
      cases s <;> simp only [Unwind, UnwindLoop] at h <;>
        first | exact absurd h (Option.some_ne_none _) | skip
      rename_i i
      by_cases hb : i < 0 ∨ i ≥ (A.length : Int)
      · rw [if_pos hb] at h
        exact absurd h (Option.some_ne_none _)
      · exact ⟨i, rfl, by omega, by omega⟩
    · rintro ⟨i, rfl, h0, h1⟩
      have hb : ¬ (i < 0 ∨ i ≥ (A.length : Int)) := by omega
      simp only [Unwind, UnwindLoop, hb, if_false]
  · rintro i rfl h0 h
    have hb : ¬ (i < 0 ∨ i ≥ (A.length : Int)) := by omega
    simp only [Unwind, UnwindLoop, hb, if_false]
    rw [List.getD_eq_getElem A Any.nil h]
  · rintro i rfl hb
    have hb' : i < 0 ∨ i ≥ (A.length : Int) := by omega
    simp only [Unwind, UnwindLoop, hb', if_true]
  · intro hni
    cases s <;> first | rfl | exact absurd rfl (hni _)
  · have hb : (-1 : Int) < 0 ∨ (-1 : Int) ≥ (A.length : Int) := Or.inl (by decide)
    simp only [Unwind, UnwindLoop, hb, if_true]

/-! ## More on `Unwind` -/

/-- The argument list kept for the error text changes neither the value
returned nor whether the walk succeeds. -/
theorem UnwindLoop_args (a b : List Any) :
    ∀ (p : List Any) (s : Any),
      (UnwindLoop a s p).1 = (UnwindLoop b s p).1 ∧
      ((UnwindLoop a s p).2 = none ↔ (UnwindLoop b s p).2 = none) := by
  intro p
  induction p with
  | nil => intro s; simp [UnwindLoop]
  | cons arg rest ih =>
    intro s
    cases s <;> cases arg <;> simp only [UnwindLoop] <;>
      first
      | exact ih _
      | (split_ifs
         · simp
         · exact ih _)
      | simp

/-- The errors of `Unwind` are fresh values: none is the package variable
`ErrJSONPathDoesNotExists`. -/
theorem UnwindLoop_not_sentinel (a : List Any) :
    ∀ (p : List Any) (s : Any),
      (UnwindLoop a s p).2 ≠ some GoError.ErrJSONPathDoesNotExists := by
  intro p
  induction p with
  | nil => intro s; simp [UnwindLoop]
  | cons arg rest ih =>
    intro s
    cases s <;> cases arg <;> simp only [UnwindLoop] <;>
      first
      | exact ih _
      | (intro h; cases h)
      | (split_ifs
         · intro h; cases h
         · exact ih _)

theorem Unwind_nil (V : Any) : Unwind V [] = (V, none) := rfl

/-- From a value that is neither a slice nor a map, a non-empty path fails at
once with the path error. -/
theorem Unwind_scalar (V : Any) (P : List Any) (hs : ∀ v : List Any, V ≠ Any.slice v)
    (hm : ∀ m : List (String × Any), V ≠ Any.map m) (hP : P ≠ []) :
    Unwind V P = (V, some (GoError.incorrectPath P)) := by
  cases P with
  | nil => exact absurd rfl hP
  | cons arg rest =>
    cases V <;>
      first
      | exact ((hs _) rfl).elim
      | exact ((hm _) rfl).elim
      | rfl

theorem mapGet_absent (O : List (String × Any)) (k : String) (h : ∀ x, (k, x) ∉ O) :
    mapGet O k = Any.nil := by
  induction O with
  | nil => rfl
  | cons b O ih =>
    obtain ⟨k0, y⟩ := b
    have hne : k0 ≠ k := by
      intro e
      exact h y (by rw [e]; exact List.mem_cons_self _ _)
    simp only [mapGet, hne, if_false]
    exact ih (fun x hx => h x (List.mem_cons_of_mem _ hx))

theorem mapGet_present (O : List (String × Any)) (k : String) (x : Any)
    (hnd : (O.map Prod.fst).Nodup) (h : (k, x) ∈ O) : mapGet O k = x := by
  induction O with
  | nil => cases h
  | cons b O ih =>
    obtain ⟨k0, y⟩ := b
    simp only [List.map_cons, List.nodup_cons] at hnd
    rcases List.mem_cons.mp h with e | hin
    · cases e
      simp [mapGet]
    · have hne : k0 ≠ k := by
        intro e
        apply hnd.1
        rw [e]
        exact List.mem_map.mpr ⟨(k, x), hin, rfl⟩
      simp only [mapGet, hne, if_false]
      exact ih hnd.2 hin

/-- C11. The step of `Unwind` on a map is total for string keys: for every map
`O` and string `k`, `Unwind(k)` on `O` succeeds with the map read `O[k]`, which
is the value bound to `k` when there is one (the keys of a map are distinct)
and `nil` when `k` is absent; a segment that is not a string fails with the
expected-string error; and for an absent key `k` and a non-empty further path
`R`, `Unwind(k, R...)` fails, at the segment after `k`, on the `nil` reached. -/
theorem c11_unwind_map_step (O : List (String × Any)) :
    (∀ k : String, Unwind (Any.map O) [Any.string k] = (mapGet O k, none)) ∧
    (∀ (k : String) (x : Any), (O.map Prod.fst).Nodup → (k, x) ∈ O →
      Unwind (Any.map O) [Any.string k] = (x, none)) ∧
    (∀ k : String, (∀ x, (k, x) ∉ O) →
      Unwind (Any.map O) [Any.string k] = (Any.nil, none)) ∧
    (∀ s : Any, (∀ k : String, s ≠ Any.string k) →
      Unwind (Any.map O) [s] = (Any.map O, some (GoError.expectedString s))) ∧
    (∀ (k : String) (R : List Any), (∀ x, (k, x) ∉ O) → R ≠ [] →
      Unwind (Any.map O) (Any.string k :: R)
        = (Any.nil, some (GoError.incorrectPath (Any.string k :: R)))) := by
  refine ⟨fun k => rfl, ?_, ?_, ?_, ?_⟩
  · intro k x hnd hx
    show (mapGet O k, none) = _
    rw [mapGet_present O k x hnd hx]
  · intro k hk
    show (mapGet O k, none) = _
    rw [mapGet_absent O k hk]
  · intro s hs
    cases s <;> first | exact ((hs _) rfl).elim | rfl
  · intro k R hk hR
    cases R with
    | nil => exact absurd rfl hR
    | cons r R =>
      show UnwindLoop _ (mapGet O k) (r :: R) = _
      rw [mapGet_absent O k hk]
      rfl

/-- C11 at `{"a":{"b":1}}`: `Unwind("a")` yields the inner map, `Unwind("z")`
yields `nil`, and `Unwind("z", "b")` fails. -/
theorem c11_unwind_map_step_witness :
    Unwind docAB [Any.string "a"] = (Any.map [("b", Any.float64 f1)], none) ∧
    Unwind docAB [Any.string "z"] = (Any.nil, none) ∧
    Unwind docAB (Any.string "z" :: [Any.string "b"])
      = (Any.nil, some (GoError.incorrectPath (Any.string "z" :: [Any.string "b"]))) :=
  ⟨(c11_unwind_map_step [("a", Any.map [("b", Any.float64 f1)])]).2.1 "a" _ (by decide)
      (by decide),
   (c11_unwind_map_step [("a", Any.map [("b", Any.float64 f1)])]).2.2.1 "z"
      (by intro x hx; simp at hx),
   (c11_unwind_map_step [("a", Any.map [("b", Any.float64 f1)])]).2.2.2.2 "z"
      [Any.string "b"] (by intro x hx; simp at hx) (by decide)⟩

/-- C12, as stated, fails at the value `true` with the path `"a"`: `Unwind`
returns the path error built by `fmt.Errorf`, which is not the package
variable `ErrJSONPathDoesNotExists`. -/
theorem c12_unwind_scalar_counterexample :
    Unwind (Any.bool true) [Any.string "a"]
      = (Any.bool true, some (GoError.incorrectPath [Any.string "a"])) ∧
    (Unwind (Any.bool true) [Any.string "a"]).2 ≠ some GoError.ErrJSONPathDoesNotExists := by
  decide

/-- C12, amended. Navigation from a non-container fails: for every value `V`
that is neither a slice nor a map (a scalar or `nil`) and every non-empty path
`P`, `Unwind(P...)` returns `V` with a non-nil error, the fresh error "incorrect
or not existent json path" that carries the path; it is not the package
variable `ErrJSONPathDoesNotExists`. -/
theorem c12_unwind_scalar_error (V : GenJSON) (P : List Any)
    (hs : ∀ v : List Any, V ≠ Any.slice v) (hm : ∀ m : List (String × Any), V ≠ Any.map m)
    (hP : P ≠ []) :
    Unwind V P = (V, some (GoError.incorrectPath P)) ∧
    (Unwind V P).2 ≠ none ∧
    (Unwind V P).2 ≠ some GoError.ErrJSONPathDoesNotExists := by
  rw [Unwind_scalar V P hs hm hP]
  exact ⟨rfl, by simp, by simp⟩

/-- C12, amended, at the number 1 with the path `"a", 0`. -/
theorem c12_unwind_scalar_error_witness :
    Unwind (Any.float64 f1) [Any.string "a", Any.int 0]
      = (Any.float64 f1, some (GoError.incorrectPath [Any.string "a", Any.int 0])) ∧
    (Unwind (Any.float64 f1) [Any.string "a", Any.int 0]).2 ≠ none ∧
    (Unwind (Any.float64 f1) [Any.string "a", Any.int 0]).2
      ≠ some GoError.ErrJSONPathDoesNotExists :=
  c12_unwind_scalar_error (Any.float64 f1) [Any.string "a", Any.int 0]
    (fun _ h => Any.noConfusion h) (fun _ h => Any.noConfusion h) (by decide)

/-- C13. `Unwind` is a left-to-right fold over the path: with the empty path it
returns the receiver and no error; if `Unwind(P...)` on `V` yields `X`, then
`Unwind` of `P ++ Q` on `V` succeeds exactly when `Unwind(Q...)` on `X` does,
and returns the same value; if `Unwind(P...)` on `V` fails, so does `Unwind` of
`P ++ Q`. -/
theorem c13_unwind_fold (V : GenJSON) (P Q : List Any) :
    Unwind V [] = (V, none) ∧
    (∀ X : GenJSON, Unwind V P = (X, none) →
      ((Unwind V (P ++ Q)).2 = none ↔ (Unwind X Q).2 = none) ∧
      (Unwind V (P ++ Q)).1 = (Unwind X Q).1) ∧
    (∀ (X : GenJSON) (e : GoError), Unwind V P = (X, some e) →
      (Unwind V (P ++ Q)).2 ≠ none) := by
  refine ⟨rfl, ?_, ?_⟩
  · intro X h
    have h1 := UnwindLoop_ok_args P (P ++ Q) P V X h
    have h2 : Unwind V (P ++ Q) = UnwindLoop (P ++ Q) X Q := UnwindLoop_append _ Q P V X h1
    rw [h2]
    exact ⟨(UnwindLoop_args (P ++ Q) Q Q X).2, (UnwindLoop_args (P ++ Q) Q Q X).1⟩
  · intro X e h hnone
    have hfail : (UnwindLoop (P ++ Q) V P).2 ≠ none := by
      intro hh
      have := (UnwindLoop_args (P ++ Q) P P V).2.mp hh
      rw [show UnwindLoop P V P = Unwind V P from rfl, h] at this
      cases this
    rcases hr : UnwindLoop (P ++ Q) V P with ⟨x, _ | e'⟩
    · rw [hr] at hfail
      exact hfail rfl
    · have := UnwindLoop_append_err (P ++ Q) Q P V x e' hr
      rw [show Unwind V (P ++ Q) = UnwindLoop (P ++ Q) V (P ++ Q) from rfl, this] at hnone
      cases hnone

/-! ## More on `Set` and `Delete` -/

/-- `Set` on a path with a last segment, in terms of what `Unwind` gives on the
segments before it. -/
theorem Set_concat (V X : Any) (Q : List Any) (s : Any) :
    Set V (X :: (Q ++ [s])) =
      match Unwind V Q with
      | (c, none) =>
        match c with
        | Any.slice v =>
          match s with
          | Any.int i =>
            if i < 0 ∨ i ≥ (v.length : Int) then
              (V, Outcome.error (GoError.indexOutOfBounds i))
            else (storeAt V Q (Any.slice (v.set i.toNat X)), Outcome.ok)
          | _ => (V, Outcome.error (GoError.expectedInteger s))
        | Any.map m =>
          match s with
          | Any.string k => (storeAt V Q (Any.map (mapSet m k X)), Outcome.ok)
          | _ => (V, Outcome.error (GoError.expectedString s))
        | _ => (V, Outcome.error GoError.ErrJSONPathDoesNotExists)
      | (_, some err) => (V, Outcome.error err) := by
  cases Q with
  | nil => rfl
  | cons q Q =>
    simp only [List.cons_append, Set, Set_args_dropLast, Set_args_getLast]

/-- The three ways a `Set` on a non-empty path ends: a slot of a slice is
assigned, a key of a map is assigned, or an error is returned and nothing is
changed. -/
theorem Set_cases (V X : Any) (Q : List Any) (s : Any) :
    (∃ (v : List Any) (i : Int), Unwind V Q = (Any.slice v, none) ∧ s = Any.int i ∧ 0 ≤ i ∧
        i < (v.length : Int) ∧
        Set V (X :: (Q ++ [s])) = (storeAt V Q (Any.slice (v.set i.toNat X)), Outcome.ok)) ∨
    (∃ (m : List (String × Any)) (k : String), Unwind V Q = (Any.map m, none) ∧
        s = Any.string k ∧
        Set V (X :: (Q ++ [s])) = (storeAt V Q (Any.map (mapSet m k X)), Outcome.ok)) ∨
    ((¬ ∃ (v : List Any) (i : Int), Unwind V Q = (Any.slice v, none) ∧ s = Any.int i ∧ 0 ≤ i ∧
        i < (v.length : Int)) ∧
     (¬ ∃ (m : List (String × Any)) (k : String), Unwind V Q = (Any.map m, none) ∧
        s = Any.string k) ∧
     ∃ e : GoError, Set V (X :: (Q ++ [s])) = (V, Outcome.error e)) := by
  rw [Set_concat]
  rcases hU : Unwind V Q with ⟨c, _ | err⟩
  · cases c <;> cases s <;> simp
    rename_i v i
    by_cases hb : i < 0 ∨ (v.length : Int) ≤ i
    · simp [hb]
      omega
    · simp [hb]
      omega
  · simp

/-- C14. `Set` succeeds only on an existing slot and changes nothing when it
fails: for every tree `V`, value `X` and path `Q ++ [s]` (`Q` may be empty),
`Set` returns no error iff `Unwind(Q...)` yields a slice and `s` is an integer
in `[0, len)`, or `Unwind(Q...)` yields a map and `s` is a string; in every
other case it returns an error and the tree is unchanged; a successful `Set`
into a slice leaves the length of that slice unchanged, and a successful `Set`
into a map binds the key (inserting or overwriting). -/
theorem c14_set_existing_slot (V X : GenJSON) (Q : List Any) (s : Any) :
    ((Set V (X :: (Q ++ [s]))).2 = Outcome.ok ↔
      (∃ (v : List Any) (i : Int), Unwind V Q = (Any.slice v, none) ∧ s = Any.int i ∧ 0 ≤ i ∧
        i < (v.length : Int)) ∨
      (∃ (m : List (String × Any)) (k : String), Unwind V Q = (Any.map m, none) ∧
        s = Any.string k)) ∧
    ((Set V (X :: (Q ++ [s]))).2 ≠ Outcome.ok →
      (∃ e : GoError, (Set V (X :: (Q ++ [s]))).2 = Outcome.error e) ∧
      (Set V (X :: (Q ++ [s]))).1 = V) ∧
    (∀ (v : List Any) (i : Int), Unwind V Q = (Any.slice v, none) → s = Any.int i → 0 ≤ i →
      i < (v.length : Int) →
      ∃ v' : List Any, Unwind (Set V (X :: (Q ++ [s]))).1 Q = (Any.slice v', none) ∧
        v'.length = v.length ∧ v' = v.set i.toNat X) ∧
    (∀ (m : List (String × Any)) (k : String), Unwind V Q = (Any.map m, none) →
      s = Any.string k →
      Unwind (Set V (X :: (Q ++ [s]))).1 Q = (Any.map (mapSet m k X), none) ∧
      mapGet (mapSet m k X) k = X) := by
  refine ⟨?_, ?_, ?_, ?_⟩
  · rcases Set_cases V X Q s with ⟨v, i, hU, hs, h0, h1, hS⟩ | ⟨m, k, hU, hs, hS⟩ |
      ⟨hn1, hn2, e, hS⟩
    · rw [hS]
      exact ⟨fun _ => Or.inl ⟨v, i, hU, hs, h0, h1⟩, fun _ => rfl⟩
    · rw [hS]
      exact ⟨fun _ => Or.inr ⟨m, k, hU, hs⟩, fun _ => rfl⟩
    · rw [hS]
      constructor
      · intro h
        cases h
      · rintro (h | h)
        · exact (hn1 h).elim
        · exact (hn2 h).elim
  · intro hne
    rcases Set_cases V X Q s with ⟨v, i, hU, hs, h0, h1, hS⟩ | ⟨m, k, hU, hs, hS⟩ |
      ⟨hn1, hn2, e, hS⟩
    · rw [hS] at hne
      exact (hne rfl).elim
    · rw [hS] at hne
      exact (hne rfl).elim
    · rw [hS]
      exact ⟨⟨e, rfl⟩, rfl⟩
  · intro v i hU hs h0 h1
    subst hs
    rw [Set_slice V X Q v i hU h0 h1]
    exact ⟨v.set i.toNat X, Unwind_storeAt V Q _ _ hU, List.length_set _ _ _, rfl⟩
  · intro m k hU hs
    subst hs
    rw [Set_map V X Q m k hU]
    exact ⟨Unwind_storeAt V Q _ _ hU, mapGet_mapSet_same m k X⟩

/-- C14 at `{"a":[1,2,3]}`: `Set(99, "a", 5)` returns the index error and leaves
the tree as it was. -/
theorem c14_set_existing_slot_witness :
    (∃ e : GoError,
      (Set docA123 (Any.float64 f99 :: ([Any.string "a"] ++ [Any.int 5]))).2
        = Outcome.error e) ∧
    (Set docA123 (Any.float64 f99 :: ([Any.string "a"] ++ [Any.int 5]))).1 = docA123 :=
  (c14_set_existing_slot docA123 (Any.float64 f99) [Any.string "a"] (Any.int 5)).2.1
    (by decide)

/-- `Delete` on a path with a last segment, in terms of what `Unwind` gives on
the segments before it. -/
theorem Delete_concat (V : Any) (Q : List Any) (s : Any) :
    Delete V (Q ++ [s]) =
      match Unwind V Q with
      | (_, some err) => (V, Outcome.error err)
      | (c, none) =>
        match c with
        | Any.slice v =>
          match s with
          | Any.int i =>
            if i < 0 ∨ i ≥ (v.length : Int) then
              (V, Outcome.error (GoError.indexOutOfBounds i))
            else
              match Set V (Any.slice (deleteLoop i v 0 0 (List.replicate (v.length - 1) Any.nil))
                  :: Q) with
              | (t, Outcome.panicked) => (t, Outcome.panicked)
              | (t, _) => (t, Outcome.ok)
          | _ => (V, Outcome.error (GoError.expectedInteger s))
        | Any.map m =>
          match s with
          | Any.string k => (storeAt V Q (Any.map (mapDelete m k)), Outcome.ok)
          | _ => (V, Outcome.error (GoError.expectedString s))
        | _ => (V, Outcome.error GoError.ErrJSONPathDoesNotExists) := by
  unfold Delete
  rw [Delete_parent]
  simp only [List.length_append, List.length_singleton, Nat.add_one_ne_zero, if_false,
    List.getLastD_concat, List.dropLast_concat]

/-- C15. `Delete` returns the package variable `ErrJSONPathDoesNotExists`
exactly when the path is empty or the parent path (all segments but the last)
resolves to a value that is neither a slice nor a map (a scalar or `nil`); in
both cases the tree is left unchanged. -/
theorem c15_delete_sentinel (V : GenJSON) (args : List Any) :
    ((Delete V args).2 = Outcome.error GoError.ErrJSONPathDoesNotExists ↔
      args = [] ∨
      ∃ c : Any, Unwind V args.dropLast = (c, none) ∧ (∀ v : List Any, c ≠ Any.slice v) ∧
        ∀ m : List (String × Any), c ≠ Any.map m) ∧
    ((Delete V args).2 = Outcome.error GoError.ErrJSONPathDoesNotExists →
      (Delete V args).1 = V) := by
  rcases List.eq_nil_or_concat args with rfl | ⟨Q, s, rfl⟩
  · exact ⟨⟨fun _ => Or.inl rfl, fun _ => rfl⟩, fun _ => rfl⟩
  · rw [List.concat_eq_append]
    have hne : Q ++ [s] ≠ [] := by simp
    rw [List.dropLast_concat, Delete_concat]
    rcases hU : Unwind V Q with ⟨c, _ | err⟩
    · cases c <;> cases s <;> simp [hne]
      rename_i v i
      by_cases hb : i < 0 ∨ (v.length : Int) ≤ i
      · simp [hb]
      · simp only [hb, if_false]
        rcases Set V (Any.slice (deleteLoop i v 0 0 (List.replicate (v.length - 1) Any.nil))
          :: Q) with ⟨t, _ | e | _⟩ <;> simp
    · have hns : err ≠ GoError.ErrJSONPathDoesNotExists := by
        intro e
        have := UnwindLoop_not_sentinel Q Q V
        rw [show UnwindLoop Q V Q = Unwind V Q from rfl, hU, e] at this
        exact this rfl
      simp [hne, hns]

/-- C16, at the failing input: the root `[1, 2]` and `Delete(0)`.  The
write-back `Set` gets the new slice and no path segment, and its
`args[1:(len(args)-1)]` is `args[1:0]`, a run-time panic.  The same happens for
every root slice and every index in range. -/
theorem c16_delete_root_slice_panics :
    Delete (Any.slice [Any.float64 f1, Any.float64 f2]) [Any.int 0]
      = (Any.slice [Any.float64 f1, Any.float64 f2], Outcome.panicked) ∧
    Set (Any.slice [Any.float64 f1, Any.float64 f2]) [Any.slice [Any.float64 f2]]
      = (Any.slice [Any.float64 f1, Any.float64 f2], Outcome.panicked) ∧
    ∀ (A : List Any) (i : Int), 0 ≤ i → i < (A.length : Int) →
      Delete (Any.slice A) [Any.int i] = (Any.slice A, Outcome.panicked) := by
  refine ⟨by decide, by decide, ?_⟩
  intro A i h0 h1
  have hb : ¬ (i < 0 ∨ i ≥ (A.length : Int)) := by omega
  have := Delete_concat (Any.slice A) [] (Any.int i)
  simp only [List.nil_append, Unwind_nil, hb, if_false, Set] at this
  exact this

/-! ## The typed accessors `Int` and `Float` -/

theorem floatOne_pos : 0 < floatOne := by
  unfold floatOne
  positivity

theorem fTiny_val : fTiny.val = FloatVal.finite 1 := by decide

theorem fTwo63_val : fTwo63.val = FloatVal.finite ((2 : Int) ^ 63 * floatOne) := by decide!

theorem tdiv_one_floatOne : Int.tdiv 1 floatOne = 0 := by decide!

/-- `Int` on a value that is not a `float64`. -/
theorem GenJSONInt_not_number (conv : Float64 → Int) (V : GenJSON) (P : List Any) (X : Any)
    (hU : Unwind V P = (X, none)) (hX : ∀ r : Float64, X ≠ Any.float64 r) :
    GenJSONInt conv V P = (0, some (GoError.notAnInt P X)) := by
  unfold GenJSONInt
  rw [hU]
  cases X <;> first | exact ((hX _) rfl).elim | rfl

/-- `Int` on a finite `float64`, by the distance of the number from its
integer part. -/
theorem GenJSONInt_finite (conv : Float64 → Int) (V : GenJSON) (P : List Any) (r : Float64)
    (u : Int) (hU : Unwind V P = (Any.float64 r, none)) (hr : r.val = FloatVal.finite u) :
    GenJSONInt conv V P =
      if 1 < ((u - Int.tdiv u floatOne * floatOne).natAbs : Int) then
        (0, some (GoError.floatNotInt (Any.float64 r)))
      else (intOfFloat64 conv r, none) := by
  unfold GenJSONInt
  rw [hU]
  simp only [hr, mathTrunc, floatSub, mathAbs, SmallestNonzeroFloat64, floatGt,
    decide_eq_true_eq]

/-- C17, as stated, fails in two places.  The smallest positive `float64`,
`2^(-1074)`, has a fractional part (its integer part is 0), and `Int` returns
0 with no error, whatever the platform.  The `float64` `2^63` is its own
integer part, and `Int` returns no error with a result below `2^63`, so not
equal to it. -/
theorem c17_int_counterexample :
    (fTiny.val = FloatVal.finite 1 ∧ mathTrunc fTiny.val = FloatVal.finite 0 ∧
      ∀ conv : Float64 → Int, GenJSONInt conv (Any.float64 fTiny) [] = (0, none)) ∧
    (fTwo63.val = FloatVal.finite ((2 : Int) ^ 63 * floatOne) ∧
      mathTrunc fTwo63.val = fTwo63.val ∧
      ∀ conv : Float64 → Int, (GenJSONInt conv (Any.float64 fTwo63) []).2 = none ∧
        (GenJSONInt conv (Any.float64 fTwo63) []).1 < (2 : Int) ^ 63) := by
  refine ⟨⟨fTiny_val, by decide!, ?_⟩, ⟨fTwo63_val, by decide!, ?_⟩⟩
  · intro conv
    rw [GenJSONInt_finite conv _ [] fTiny 1 rfl fTiny_val]
    have h1 : ¬ (1 < (((1 : Int) - Int.tdiv 1 floatOne * floatOne).natAbs : Int)) := by
      rw [tdiv_one_floatOne]
      simp
    rw [if_neg h1]
    simp only [intOfFloat64, fTiny_val, tdiv_one_floatOne]
    rfl
  · intro conv
    rw [GenJSONInt_finite conv _ [] fTwo63 _ rfl fTwo63_val]
    have hz : Int.tdiv ((2 : Int) ^ 63 * floatOne) floatOne = (2 : Int) ^ 63 :=
      Int.mul_tdiv_cancel _ (ne_of_gt floatOne_pos)
    have h1 : ¬ (1 < ((((2 : Int) ^ 63 * floatOne)
        - Int.tdiv ((2 : Int) ^ 63 * floatOne) floatOne * floatOne).natAbs : Int)) := by
      rw [hz]
      simp
    rw [if_neg h1]
    refine ⟨rfl, ?_⟩
    simp only [intOfFloat64, fTwo63_val, hz]
    have hlt : ¬ ((-(2 : Int) ^ 63 ≤ (2 : Int) ^ 63) ∧ ((2 : Int) ^ 63 < (2 : Int) ^ 63)) := by
      omega
    rw [if_neg hlt]
    have := @Int.bmod_lt (conv fTwo63) (2 ^ 64) (by decide)
    omega

/-- C17, amended. For every tree and path on which `Unwind` yields `X`: if `X`
is not a Number, `Int` returns 0 with the type-mismatch error; if `X` is a
finite Number whose distance from its integer part is greater than
`SmallestNonzeroFloat64`, it returns 0 with the not-an-integer error, which is
a different error; if that distance is at most `SmallestNonzeroFloat64` and the
integer part `n` lies in `[-2^63, 2^63)`, it returns `n` with no error; so a
whole number `n` in that range gives `n` (4.0 gives 4). -/
theorem c17_int_accessor (conv : Float64 → Int) (V : GenJSON) (P : List Any) (X : Any)
    (hU : Unwind V P = (X, none)) :
    ((∀ r : Float64, X ≠ Any.float64 r) →
      GenJSONInt conv V P = (0, some (GoError.notAnInt P X))) ∧
    (∀ (r : Float64) (u : Int), X = Any.float64 r → r.val = FloatVal.finite u →
      1 < ((u - Int.tdiv u floatOne * floatOne).natAbs : Int) →
      GenJSONInt conv V P = (0, some (GoError.floatNotInt X))) ∧
    (∀ (r : Float64) (u : Int), X = Any.float64 r → r.val = FloatVal.finite u →
      ((u - Int.tdiv u floatOne * floatOne).natAbs : Int) ≤ 1 →
      -(2 : Int) ^ 63 ≤ Int.tdiv u floatOne → Int.tdiv u floatOne < (2 : Int) ^ 63 →
      GenJSONInt conv V P = (Int.tdiv u floatOne, none)) ∧
    (∀ (r : Float64) (n : Int), X = Any.float64 r → r.val = FloatVal.finite (n * floatOne) →
      -(2 : Int) ^ 63 ≤ n → n < (2 : Int) ^ 63 → GenJSONInt conv V P = (n, none)) ∧
    (∀ (a : List Any) (s s' : Any), GoError.notAnInt a s ≠ GoError.floatNotInt s') := by
  refine ⟨GenJSONInt_not_number conv V P X hU, ?_, ?_, ?_, ?_⟩
  · rintro r u rfl hr hd
    rw [GenJSONInt_finite conv V P r u hU hr, if_pos hd]
  · rintro r u rfl hr hd h0 h1
    rw [GenJSONInt_finite conv V P r u hU hr, if_neg (by omega)]
    simp only [intOfFloat64, hr]
    rw [if_pos ⟨h0, h1⟩]
  · rintro r n rfl hr h0 h1
    have hz : Int.tdiv (n * floatOne) floatOne = n :=
      Int.mul_tdiv_cancel _ (ne_of_gt floatOne_pos)
    rw [GenJSONInt_finite conv V P r _ hU hr]
    have hd : ¬ (1 < (((n * floatOne) - Int.tdiv (n * floatOne) floatOne * floatOne).natAbs
        : Int)) := by
      rw [hz]
      simp
    rw [if_neg hd]
    simp only [intOfFloat64, hr, hz]
    rw [if_pos ⟨h0, h1⟩]
  · intro a s s' h
    cases h

/-- C17, amended, at the numbers 4 and 4.5 and at a string: `Int` gives 4 with
no error, the not-an-integer error, and the type-mismatch error. -/
theorem c17_int_accessor_witness :
    GenJSONInt (fun _ => 0) (Any.float64 f4) [] = (4, none) ∧
    GenJSONInt (fun _ => 0) (Any.float64 f4half) []
      = (0, some (GoError.floatNotInt (Any.float64 f4half))) ∧
    GenJSONInt (fun _ => 0) (Any.string "4") []
      = (0, some (GoError.notAnInt [] (Any.string "4"))) :=
  ⟨(c17_int_accessor (fun _ => 0) (Any.float64 f4) [] (Any.float64 f4) rfl).2.2.2.1 f4 4 rfl
      (by decide!) (by decide) (by decide),
   (c17_int_accessor (fun _ => 0) (Any.float64 f4half) [] (Any.float64 f4half) rfl).2.1
      f4half (9 * 2 ^ 1073) rfl (by decide!) (by decide!),
   (c17_int_accessor (fun _ => 0) (Any.string "4") [] (Any.string "4") rfl).1
      (fun _ h => Any.noConfusion h)⟩

/-- `Float` when the navigation fails: the zero value of the named result is
returned with the error of `Unwind`. -/
theorem GenJSONFloat_unwind_error (V : GenJSON) (P : List Any) (X : Any) (e : GoError)
    (hU : Unwind V P = (X, some e)) : GenJSONFloat V P = (⟨0⟩, some e) := by
  unfold GenJSONFloat
  rw [hU]

/-- `Float` when the value found is not a `float64`: `math.NaN()` is returned. -/
theorem GenJSONFloat_not_number (V : GenJSON) (P : List Any) (X : Any)
    (hU : Unwind V P = (X, none)) (hX : ∀ r : Float64, X ≠ Any.float64 r) :
    GenJSONFloat V P = (mathNaN, some (GoError.notFloat64 P X)) := by
  unfold GenJSONFloat
  rw [hU]
  cases X <;> first | exact ((hX _) rfl).elim | rfl

/-- C18, at the failing input `{"a":{"b":1}}` with `Float("a", "b", "c")`: the
navigation fails at `"c"`, and `Float` returns the error with the number 0,
which is not a NaN.  With `Float("a")`, where the value found is a map, it
returns `math.NaN()`. -/
theorem c18_float_navigation_failure :
    GenJSONFloat docAB [Any.string "a", Any.string "b", Any.string "c"]
      = (⟨0⟩, some (GoError.incorrectPath [Any.string "a", Any.string "b", Any.string "c"])) ∧
    (⟨0⟩ : Float64).val = FloatVal.finite 0 ∧
    GenJSONFloat docAB [Any.string "a"]
      = (mathNaN, some (GoError.notFloat64 [Any.string "a"]
          (Any.map [("b", Any.float64 f1)]))) ∧
    mathNaN.val = FloatVal.nan := by
  decide

/-! ## What a scan returns satisfies the predicate -/

theorem scanRangeLast_returned (p : Any → Bool) (path : List Any) :
    ∀ (xs : List Any) (j : Nat) (s X : Any) (C : List Any) (ok : Bool),
      scanRangeLast p path xs j s = RangeExit.returned X C ok → p X = true := by
  intro xs
  induction xs with
  | nil => intro j s X C ok h; simp [scanRangeLast] at h
  | cons x xs ih =>
    intro j s X C ok h
    by_cases hx : p x = true
    · simp only [scanRangeLast, hx, if_true] at h
      cases h
      exact hx
    · simp only [scanRangeLast, hx, if_false] at h
      exact ih _ _ _ _ _ h

theorem scanRangeRest_returned (p : Any → Bool) (scan : GenJSON → GenJSON × List Any × Bool)
    (path : List Any) (hscan : ∀ (obj X : Any) (C : List Any), scan obj = (X, C, true) →
      p X = true) :
    ∀ (xs : List Any) (j : Nat) (s X : Any) (C : List Any) (ok : Bool),
      scanRangeRest scan path xs j s = RangeExit.returned X C ok → p X = true := by
  intro xs
  induction xs with
  | nil => intro j s X C ok h; simp [scanRangeRest] at h
  | cons x xs ih =>
    intro j s X C ok h
    rcases hx : scan x with ⟨r1, r2, _ | _⟩
    · simp only [scanRangeRest, hx] at h
      exact ih _ _ _ _ _ h
    · simp only [scanRangeRest, hx] at h
      cases h
      exact hscan x _ _ hx

/-- Whatever the state of the loop, a result with found = true carries a value
the predicate accepts. -/
theorem ScanLoop_found (p : Any → Bool) :
    ∀ (R path : List Any) (s X : Any) (C : List Any),
      ScanLoop p path s R = (X, C, true) → p X = true := by
  intro R
  induction R with
  | nil => intro path s X C h; simp [ScanLoop] at h
  | cons arg rest ih =>
    intro path s X C h
    by_cases h1 : rest.length = 0 ∧ p s = true
    · simp only [ScanLoop, h1, and_self, if_true] at h
      cases h
      exact h1.2
    · cases s <;> cases arg <;> simp only [ScanLoop, h1, if_false] at h <;>
        first
        | cases h
        | exact ih _ _ _ _ h
        | skip
      rename_i v i
      by_cases hw : i = -1
      · simp only [hw, if_true] at h
        by_cases hl : rest.length = 0
        · simp only [hl, if_true] at h
          rcases hr : scanRangeLast p (path ++ [Any.int (-1)]) v 0 (Any.slice v) with
            ⟨x, q, ok⟩ | s1
          · rw [hr] at h
            cases h
            exact scanRangeLast_returned p _ _ _ _ _ _ _ hr
          · rw [hr] at h
            exact ih _ _ _ _ h
        · simp only [hl, if_false] at h
          rcases hr : scanRangeRest (fun obj => ScanLoop p [] obj rest)
              (path ++ [Any.int (-1)]) v 0 (Any.slice v) with ⟨x, q, ok⟩ | s1
          · rw [hr] at h
            cases h
            exact scanRangeRest_returned p _ _ (fun obj X C hh => ih _ _ _ _ hh) _ _ _ _ _ _ hr
          · rw [hr] at h
            exact ih _ _ _ _ h
      · simp only [hw, if_false] at h
        by_cases hb : i < 0 ∨ i ≥ (v.length : Int)
        · simp only [hb, if_true] at h
          cases h
        · simp only [hb, if_false] at h
          rcases hr : ScanLoop p [] (Any.slice v) rest with ⟨r1, r2, _ | _⟩
          · rw [hr] at h
            exact ih _ _ _ _ h
          · rw [hr] at h
            cases h
            exact ih _ _ _ _ hr

/-- C19. A `ScanObject` match always satisfies the predicate: for every tree
`V`, predicate `p` and path `P`, if `ScanObject(p, P...)` returns `(X, C, true)`
then `p(X)` is true; and `ScanObject` with the empty path returns found = false
for every tree and predicate. -/
theorem c19_scan_match_satisfies (p : Any → Bool) (V : GenJSON) (P : List Any) (X : GenJSON)
    (C : List Any) (h : ScanObject V p P = (X, C, true)) :
    p X = true ∧ ∀ (W : GenJSON) (q : Any → Bool), ScanObject W q [] = (W, [], false) :=
  ⟨ScanLoop_found p P [] V X C h, fun _ _ => rfl⟩

/-- C19 at `{"items":[{"id":1,"ok":false},{"id":2,"ok":true}]}`: the element
returned for the path `"items", -1` has its key `ok` equal to `true`. -/
theorem c19_scan_match_satisfies_witness :
    ScanObject docItems hasOkTrue [Any.string "items", Any.int (-1)]
      = (Any.map [("id", Any.float64 f2), ("ok", Any.bool true)],
         [Any.string "items", Any.int 1], true) ∧
    hasOkTrue (Any.map [("id", Any.float64 f2), ("ok", Any.bool true)]) = true :=
  ⟨by decide,
   (c19_scan_match_satisfies hasOkTrue docItems [Any.string "items", Any.int (-1)]
      (Any.map [("id", Any.float64 f2), ("ok", Any.bool true)])
      [Any.string "items", Any.int 1] (by decide)).1⟩

/-! ## `Set` leaves the other slots alone -/

theorem getD_set_other (v : List Any) (n m : Nat) (x d : Any) (h : n ≠ m) :
    (v.set n x).getD m d = v.getD m d := by
  simp [List.getD_eq_getElem?_getD, List.getElem?_set, h]

/-- Overwriting along `p ++ q` is overwriting what `p` reaches along `q`. -/
theorem storeAt_append (a : List Any) (q : List Any) (X : Any) :
    ∀ (p : List Any) (s c : Any), UnwindLoop a s p = (c, none) →
      storeAt s (p ++ q) X = storeAt s p (storeAt c q X) := by
  intro p
  induction p with
  | nil =>
    intro s c h
    simp only [UnwindLoop, Prod.mk.injEq, and_true] at h
    subst h
    cases q <;> rfl
  | cons arg rest ih =>
    intro s c h
    rw [List.cons_append]
    cases s <;> cases arg <;> simp only [UnwindLoop] at h <;>
      first
      | exact (err_ne_ok h).elim
      | (split_ifs at h with hc
         · exact (err_ne_ok h).elim
         · simp only [storeAt, hc, if_false]
           rw [ih _ _ h])
      | (simp only [storeAt]
         rw [ih _ _ h])

/-- The tree after a successful `Set` is the tree with the value stored at
the path. -/
theorem Set_ok_tree (V X : Any) (P : List Any) (hP : P ≠ [])
    (hset : (Set V (X :: P)).2 = Outcome.ok) : (Set V (X :: P)).1 = storeAt V P X := by
  obtain ⟨Q, s, rfl⟩ : ∃ Q s, P = Q ++ [s] :=
    ⟨P.dropLast, P.getLast hP, (List.dropLast_append_getLast hP).symm⟩
  rcases Set_cases V X Q s with ⟨v, i, hU, hs, h0, h1, hS⟩ | ⟨m, k, hU, hs, hS⟩ |
    ⟨hn1, hn2, e, hS⟩
  · subst hs
    have hc : ¬ (i < 0 ∨ i ≥ (v.length : Int)) := by omega
    rw [hS, storeAt_append Q [Any.int i] X Q V _ hU]
    simp only [storeAt, hc, if_false]
  · subst hs
    rw [hS, storeAt_append Q [Any.string k] X Q V _ hU]
    simp only [storeAt]
  · rw [hS] at hset
    cases hset

theorem storeAt_slice_out (v P : List Any) (i : Int) (X : Any)
    (hc : i < 0 ∨ i ≥ (v.length : Int)) :
    storeAt (Any.slice v) (Any.int i :: P) X = Any.slice v := by
  simp only [storeAt, hc, if_true]

theorem storeAt_slice_in (v P : List Any) (i : Int) (X : Any)
    (hc : ¬ (i < 0 ∨ i ≥ (v.length : Int))) :
    storeAt (Any.slice v) (Any.int i :: P) X
      = Any.slice (v.set i.toNat (storeAt (v.getD i.toNat Any.nil) P X)) := by
  simp only [storeAt, hc, if_false]

theorem UnwindLoop_slice_in (a v Q : List Any) (i : Int)
    (hc : ¬ (i < 0 ∨ i ≥ (v.length : Int))) :
    UnwindLoop a (Any.slice v) (Any.int i :: Q) = UnwindLoop a (v.getD i.toNat Any.nil) Q := by
  simp only [UnwindLoop, hc, if_false]

theorem UnwindLoop_slice_out (a v Q : List Any) (i : Int)
    (hc : i < 0 ∨ i ≥ (v.length : Int)) :
    UnwindLoop a (Any.slice v) (Any.int i :: Q)
      = (Any.slice v, some (GoError.indexOutOfBounds i)) := by
  simp only [UnwindLoop, hc, if_true]

/-- A path that leaves the stored path at some position resolves as before:
same error or no error, and on success the same value. -/
theorem UnwindLoop_storeAt_frame (a : List Any) (X : Any) :
    ∀ (P Q : List Any) (s : Any) (k : Nat), k < P.length → k < Q.length → P[k]? ≠ Q[k]? →
      (UnwindLoop a (storeAt s P X) Q).2 = (UnwindLoop a s Q).2 ∧
      ((UnwindLoop a s Q).2 = none →
        (UnwindLoop a (storeAt s P X) Q).1 = (UnwindLoop a s Q).1) := by
  intro P
  induction P with
  | nil => intro Q s k hk; simp at hk
  | cons p P ih =>
    intro Q s k hkP hkQ hne
    cases Q with
    | nil => simp at hkQ
    | cons q Q =>
      by_cases hpq : p = q
      · subst hpq
        obtain ⟨k', rfl⟩ : ∃ k', k = k' + 1 := by
          cases k with
          | zero => simp at hne
          | succ k' => exact ⟨k', rfl⟩
        simp only [List.length_cons, Nat.add_lt_add_iff_right] at hkP hkQ
        simp only [List.getElem?_cons_succ] at hne
        cases s <;> cases p <;> first | exact ⟨rfl, fun _ => rfl⟩ | skip
        · rename_i v i
          by_cases hc : i < 0 ∨ i ≥ (v.length : Int)
          · rw [storeAt_slice_out v P i X hc]
            exact ⟨rfl, fun _ => rfl⟩
          · have hc' : ¬ (i < 0 ∨ i ≥ ((v.set i.toNat
                (storeAt (v.getD i.toNat Any.nil) P X)).length : Int)) := by
              rw [List.length_set]
              exact hc
            rw [storeAt_slice_in v P i X hc, UnwindLoop_slice_in a _ Q i hc',
              UnwindLoop_slice_in a v Q i hc, getD_set_same _ _ _ _ (by omega)]
            exact ih Q _ k' hkP hkQ hne
        · rename_i m k0
          show (UnwindLoop a (mapGet (mapSet m k0 (storeAt (mapGet m k0) P X)) k0) Q).2
              = (UnwindLoop a (mapGet m k0) Q).2 ∧
            ((UnwindLoop a (mapGet m k0) Q).2 = none →
              (UnwindLoop a (mapGet (mapSet m k0 (storeAt (mapGet m k0) P X)) k0) Q).1
                = (UnwindLoop a (mapGet m k0) Q).1)
          rw [mapGet_mapSet_same]
          exact ih Q _ k' hkP hkQ hne
      · cases s <;> cases p <;> first | exact ⟨rfl, fun _ => rfl⟩ | skip
        · rename_i v i
          by_cases hc : i < 0 ∨ i ≥ (v.length : Int)
          · rw [storeAt_slice_out v P i X hc]
            exact ⟨rfl, fun _ => rfl⟩
          · rw [storeAt_slice_in v P i X hc]
            cases q <;>
              first
              | exact ⟨rfl, fun h => (Option.some_ne_none _ h).elim⟩
              | skip
            rename_i j
            by_cases hd : j < 0 ∨ j ≥ (v.length : Int)
            · have hd' : j < 0 ∨ j ≥ ((v.set i.toNat
                  (storeAt (v.getD i.toNat Any.nil) P X)).length : Int) := by
                rw [List.length_set]
                exact hd
              rw [UnwindLoop_slice_out a _ Q j hd', UnwindLoop_slice_out a v Q j hd]
              exact ⟨rfl, fun h => (Option.some_ne_none _ h).elim⟩
            · have hd' : ¬ (j < 0 ∨ j ≥ ((v.set i.toNat
                  (storeAt (v.getD i.toNat Any.nil) P X)).length : Int)) := by
                rw [List.length_set]
                exact hd
              have hij : i.toNat ≠ j.toNat := by
                intro e
                apply hpq
                have : i = j := by omega
                rw [this]
              rw [UnwindLoop_slice_in a _ Q j hd', UnwindLoop_slice_in a v Q j hd,
                getD_set_other _ _ _ _ _ hij]
              exact ⟨rfl, fun _ => rfl⟩
        · rename_i m k0
          cases q <;>
            first
            | exact ⟨rfl, fun h => (Option.some_ne_none _ h).elim⟩
            | skip
          rename_i k1
          have hk : k1 ≠ k0 := by
            intro e
            apply hpq
            rw [e]
          show (UnwindLoop a (mapGet (mapSet m k0 (storeAt (mapGet m k0) P X)) k1) Q).2
              = (UnwindLoop a (mapGet m k1) Q).2 ∧
            ((UnwindLoop a (mapGet m k1) Q).2 = none →
              (UnwindLoop a (mapGet (mapSet m k0 (storeAt (mapGet m k0) P X)) k1) Q).1
                = (UnwindLoop a (mapGet m k1) Q).1)
          rw [mapGet_mapSet_other _ _ _ _ hk]
          exact ⟨rfl, fun _ => rfl⟩

/-- C20. `Set` changes only the addressed slot: for every tree `V`, value `X`
and non-empty path `P` on which `Set(X, P...)` succeeds, and for every path `Q`
that differs from `P` at some position `k` below both lengths, `Unwind(Q...)`
on the tree after the `Set` gives the same outcome as on `V` before it: the
same error or none, and on success the same value. -/
theorem c20_set_frame (V X : GenJSON) (P Q : List Any) (k : Nat)
    (hset : (Set V (X :: P)).2 = Outcome.ok) (hkP : k < P.length) (hkQ : k < Q.length)
    (hne : P[k] ≠ Q[k]) :
    (Unwind (Set V (X :: P)).1 Q).2 = (Unwind V Q).2 ∧
    ((Unwind V Q).2 = none → (Unwind (Set V (X :: P)).1 Q).1 = (Unwind V Q).1) := by
  have hP : P ≠ [] := by
    intro e
    rw [e] at hkP
    simp at hkP
  rw [Set_ok_tree V X P hP hset]
  apply UnwindLoop_storeAt_frame Q X P Q V k hkP hkQ
  rw [List.getElem?_eq_getElem hkP, List.getElem?_eq_getElem hkQ]
  intro e
  exact hne (Option.some.inj e)

/-- C20 at `{"a":[1,2,3]}`: after `Set(99, "a", 0)` the path `"a", 1` still
resolves to 2. -/
theorem c20_set_frame_witness :
    (Set docA123 [Any.float64 f99, Any.string "a", Any.int 0]).2 = Outcome.ok ∧
    (Unwind (Set docA123 (Any.float64 f99 :: [Any.string "a", Any.int 0])).1
        [Any.string "a", Any.int 1]).2 = (Unwind docA123 [Any.string "a", Any.int 1]).2 ∧
    ((Unwind docA123 [Any.string "a", Any.int 1]).2 = none →
      (Unwind (Set docA123 (Any.float64 f99 :: [Any.string "a", Any.int 0])).1
        [Any.string "a", Any.int 1]).1 = (Unwind docA123 [Any.string "a", Any.int 1]).1) ∧
    Unwind docA123 [Any.string "a", Any.int 1] = (Any.float64 f2, none) :=
  ⟨by decide,
   (c20_set_frame docA123 (Any.float64 f99) [Any.string "a", Any.int 0]
      [Any.string "a", Any.int 1] 1 (by decide) (by decide) (by decide) (by decide)).1,
   (c20_set_frame docA123 (Any.float64 f99) [Any.string "a", Any.int 0]
      [Any.string "a", Any.int 1] 1 (by decide) (by decide) (by decide) (by decide)).2,
   by decide⟩

end GenericJson
